import Mathlib

/-!
Verification of the deep-sanitizer masking engine.

This file gives a shallow embedding of the `AutoCodeSanitizer` class
(the most complete variant of the source: identifier masking with
semantic-hint classification, optional string-literal and comment
masking, and regex/tag based restoration) and proves or refutes the
spec's claims about it.

The syntax-tree provider (web-tree-sitter) is external to the engine;
it is modelled by an environment that supplies the definition captures
and replacement captures a parse would produce, together with success
flags for the external initialisation, grammar loading and query
construction steps.  Everything the engine itself does — name
classification, the bidirectional mapping table, the descending-offset
text splicing, and the three restoration passes — is translated
directly from the source.
-/

/-! ## JavaScript string primitives over `List Char` -/

/-- Character class of JavaScript `\d` (ASCII digits). -/
def isDigitC (c : Char) : Bool :=
  '0' ≤ c && c ≤ '9'

/-- Character class of JavaScript `\w` (ASCII word characters). -/
def isWordC (c : Char) : Bool :=
  ('a' ≤ c && c ≤ 'z') || ('A' ≤ c && c ≤ 'Z') || ('0' ≤ c && c ≤ '9') || c = '_'

/-- ASCII upper-case test, the `[A-Z]` class of the source's regexes. -/
def isUpperC (c : Char) : Bool :=
  'A' ≤ c && c ≤ 'Z'

/-- ASCII lower-casing of one character (`String.prototype.toLowerCase`
on the ASCII prefixes this engine mints). -/
def lowerC (c : Char) : Char :=
  if 'A' ≤ c ∧ c ≤ 'Z' then Char.ofNat (c.toNat + 32) else c

/-- JavaScript `String.prototype.toLowerCase` restricted to ASCII. -/
def jsToLower (s : String) : String :=
  String.mk (s.data.map lowerC)

/-- JavaScript `String.prototype.startsWith`. -/
def jsStartsWith (s pre : String) : Bool :=
  pre.data.isPrefixOf s.data

/-- JavaScript `String.prototype.endsWith`. -/
def jsEndsWith (s suf : String) : Bool :=
  suf.data.isSuffixOf s.data

/-- Substring containment, JavaScript `String.prototype.includes`. -/
def containsSub (sub : List Char) : List Char → Bool
  | [] => sub.isEmpty
  | c :: rest => sub.isPrefixOf (c :: rest) || containsSub sub rest

/-- JavaScript `String.prototype.includes`. -/
def jsIncludes (s sub : String) : Bool :=
  containsSub sub.data s.data

/-- JavaScript `String.prototype.substring(a, b)`: clamps both indices to
the string's length and swaps them when `a > b`. -/
def jsSubstring2 (s : String) (a b : Nat) : String :=
  let n := s.data.length
  let a' := min a n
  let b' := min b n
  let lo := min a' b'
  let hi := max a' b'
  String.mk ((s.data.drop lo).take (hi - lo))

/-- JavaScript `String.prototype.substring(a)` (to the end). -/
def jsSubstring1 (s : String) (a : Nat) : String :=
  String.mk (s.data.drop a)

/-- Splice of the source's
`text.substring(0, start) + repl + text.substring(stop)`. -/
def spliceL (l : List Char) (start stop : Nat) (repl : List Char) : List Char :=
  l.take start ++ repl ++ l.drop stop

/-- The characters of a span `[a, b)` of a text. -/
def sliceL (l : List Char) (a b : Nat) : List Char :=
  (l.drop a).take (b - a)

/-! ## Decimal rendering of the per-category counters

The source writes counters into masked names with a template string
(`` `${prefix}_${count}` ``), i.e. in decimal.  `toDec` is that decimal
rendering, fuel-structured so that it reduces definitionally. -/

/-- The ASCII digit for `n % 10`. -/
def digitChar10 (n : Nat) : Char :=
  Char.ofNat (48 + n % 10)

def toDecAux : Nat → Nat → List Char
  | 0, _ => []
  | fuel + 1, n =>
    if n < 10 then [digitChar10 n]
    else toDecAux fuel (n / 10) ++ [digitChar10 (n % 10)]

/-- Decimal rendering of a natural number. -/
def toDec (n : Nat) : List Char :=
  toDecAux (n + 1) n

theorem toDecAux_fuel {f g n : Nat} (hf : n < f) (hg : n < g) :
    toDecAux f n = toDecAux g n := by
  induction f generalizing g n with
  | zero => omega
  | succ f ih =>
    cases g with
    | zero => omega
    | succ g =>
      by_cases h : n < 10
      · simp [toDecAux, h]
      · have h10 : 10 ≤ n := by omega
        have hd : n / 10 < n := Nat.div_lt_self (by omega) (by omega)
        simp only [toDecAux, if_neg h]
        exact congrArg (· ++ [digitChar10 (n % 10)])
          (ih (g := g) (n := n / 10) (by omega) (by omega))

theorem toDec_eq_aux {f n : Nat} (hf : n < f) : toDec n = toDecAux f n :=
  toDecAux_fuel (Nat.lt_succ_self n) hf

theorem toDecAux_ne_nil {f n : Nat} (hf : n < f) : toDecAux f n ≠ [] := by
  cases f with
  | zero => omega
  | succ f =>
    by_cases h : n < 10
    · simp [toDecAux, h]
    · simp only [toDecAux, if_neg h]
      intro hcon
      exact absurd hcon (by simp)

theorem toDec_ne_nil (n : Nat) : toDec n ≠ [] :=
  toDecAux_ne_nil (Nat.lt_succ_self n)

theorem digitChar10_isDigit (n : Nat) : isDigitC (digitChar10 n) = true := by
  have h : n % 10 < 10 := Nat.mod_lt _ (by omega)
  unfold digitChar10 isDigitC
  interval_cases hm : n % 10 <;> decide

theorem toDecAux_digits {f n : Nat} (hf : n < f) :
    ∀ c ∈ toDecAux f n, isDigitC c = true := by
  induction f generalizing n with
  | zero => omega
  | succ f ih =>
    by_cases h : n < 10
    · simp only [toDecAux, if_pos h, List.mem_singleton]
      rintro c rfl
      exact digitChar10_isDigit n
    · have hd : n / 10 < n := Nat.div_lt_self (by omega) (by omega)
      simp only [toDecAux, if_neg h]
      intro c hc
      rcases List.mem_append.mp hc with hc | hc
      · exact ih (by omega) c hc
      · rcases List.mem_singleton.mp hc with rfl
        exact digitChar10_isDigit (n % 10)

theorem toDec_digits (n : Nat) : ∀ c ∈ toDec n, isDigitC c = true :=
  toDecAux_digits (Nat.lt_succ_self n)

theorem digitChar10_inj {m n : Nat} (hm : m < 10) (hn : n < 10)
    (h : digitChar10 m = digitChar10 n) : m = n := by
  interval_cases m <;> interval_cases n <;> first | rfl | (exact absurd h (by decide))

theorem append_singleton_inj {α : Type} {xs ys : List α} {a b : α}
    (h : xs ++ [a] = ys ++ [b]) : xs = ys ∧ a = b := by
  have := congrArg List.reverse h
  simp only [List.reverse_append, List.reverse_singleton, List.singleton_append] at this
  obtain ⟨h1, h2⟩ := List.cons.inj this
  exact ⟨by simpa using congrArg List.reverse h2, h1⟩

theorem toDecAux_inj {f m n : Nat} (hm : m < f) (hn : n < f)
    (h : toDecAux f m = toDecAux f n) : m = n := by
  induction f generalizing m n with
  | zero => omega
  | succ f ih =>
    by_cases h1 : m < 10 <;> by_cases h2 : n < 10
    · simp only [toDecAux, if_pos h1, if_pos h2, List.cons.injEq, and_true] at h
      exact digitChar10_inj (by omega) (by omega) (by simpa [digitChar10, Nat.mod_eq_of_lt, h1, h2] using h)
    · exfalso
      simp only [toDecAux, if_pos h1, if_neg h2] at h
      have hne := toDecAux_ne_nil (f := f) (n := n / 10)
        (by have := Nat.div_lt_self (show 0 < n by omega) (show 1 < 10 by omega); omega)
      have hlen := congrArg List.length h
      rcases List.exists_cons_of_ne_nil hne with ⟨x, xs, hx⟩
      rw [hx] at hlen
      simp at hlen
    · exfalso
      simp only [toDecAux, if_neg h1, if_pos h2] at h
      have hne := toDecAux_ne_nil (f := f) (n := m / 10)
        (by have := Nat.div_lt_self (show 0 < m by omega) (show 1 < 10 by omega); omega)
      have hlen := congrArg List.length h
      rcases List.exists_cons_of_ne_nil hne with ⟨x, xs, hx⟩
      rw [hx] at hlen
      simp at hlen
    · simp only [toDecAux, if_neg h1, if_neg h2] at h
      obtain ⟨hpre, hlast⟩ := append_singleton_inj h
      have hmod : m % 10 = n % 10 :=
        digitChar10_inj (Nat.mod_lt _ (by omega)) (Nat.mod_lt _ (by omega))
          (by simpa [digitChar10] using hlast)
      have hdivm : m / 10 < f := by
        have := Nat.div_lt_self (show 0 < m by omega) (show 1 < 10 by omega); omega
      have hdivn : n / 10 < f := by
        have := Nat.div_lt_self (show 0 < n by omega) (show 1 < 10 by omega); omega
      have hdiv : m / 10 = n / 10 := ih hdivm hdivn hpre
      omega

theorem toDec_inj {m n : Nat} (h : toDec m = toDec n) : m = n := by
  rcases Nat.lt_or_ge m n with hlt | hge
  · exact toDecAux_inj (f := n + 1) (by omega) (by omega)
      (by rw [← toDec_eq_aux (by omega), ← toDec_eq_aux (by omega)]; exact h)
  · exact toDecAux_inj (f := m + 1) (by omega) (by omega)
      (by rw [← toDec_eq_aux (by omega), ← toDec_eq_aux (by omega)]; exact h)

/-! ## Association-list maps

`mapForward`, `mapBackward` and `typeCounters` are JavaScript `Map`s /
plain objects: insertion-ordered key-value stores.  `assocSet` models
`Map.prototype.set` and `obj[key] = v`: update the key in place when it
is present, append it at the end otherwise. -/

def assocSet {β : Type} : List (String × β) → String → β → List (String × β)
  | [], k, v => [(k, v)]
  | kv :: rest, k, v => if kv.1 = k then (k, v) :: rest else kv :: assocSet rest k v

theorem lookup_assocSet {β : Type} (l : List (String × β)) (k : String) (v : β)
    (k' : String) :
    List.lookup k' (assocSet l k v) = if k' = k then some v else List.lookup k' l := by
  induction l with
  | nil =>
    by_cases h : k' = k
    · simp [assocSet, List.lookup, h]
    · simp [assocSet, List.lookup, h, show (k' == k) = false by simpa using h]
  | cons kv rest ih =>
    by_cases hh : kv.1 = k
    · subst hh
      by_cases h : k' = kv.1
      · simp [assocSet, List.lookup, h]
      · simp [assocSet, List.lookup, h, show (k' == kv.1) = false by simpa using h]
    · by_cases h : k' = kv.1
      · subst h
        simp [assocSet, List.lookup, if_neg hh, if_neg (fun hc => hh hc)]
      · simp only [assocSet, if_neg hh, List.lookup,
          show (k' == kv.1) = false by simpa using h]
        rw [ih]

theorem lookup_append {α β : Type} [BEq α] (l₁ l₂ : List (α × β)) (k : α) :
    List.lookup k (l₁ ++ l₂) =
      match List.lookup k l₁ with
      | some v => some v
      | none => List.lookup k l₂ := by
  induction l₁ with
  | nil => simp
  | cons kv rest ih =>
    by_cases h : k == kv.1
    · simp [List.lookup, h]
    · simp only [List.cons_append, List.lookup, h]
      exact ih

/-! ## The name classifier (`getReplacement`, steps 1–2)

Each predicate is the source's regex test written out.  `baseTag` is the
category-driven default, the `hintTag` chain is the ordered
naming-convention override (first match wins). -/

/-- Does the name start with one of the given words followed by an
ASCII capital (the `^(w1|w2|…)[A-Z]` regexes)? -/
def startsWordUpper (name : String) (words : List String) : Bool :=
  words.any fun w =>
    jsStartsWith name w &&
      (match (name.data.drop w.data.length).head? with
       | some c => isUpperC c
       | none => false)

/-- Does the name end with one of the given suffixes? -/
def endsAny (name : String) (sufs : List String) : Bool :=
  sufs.any fun w => jsEndsWith name w

/-- `/(List|Array|Items|Collection|s)$/` and not `endsWith "ss"`. -/
def listLike (name : String) : Bool :=
  endsAny name ["List", "Array", "Items", "Collection", "s"] && !(jsEndsWith name "ss")

/-- `/^(is|has|can|should|did|will)[A-Z]/`. -/
def boolStyle (name : String) : Bool :=
  startsWordUpper name ["is", "has", "can", "should", "did", "will"]

/-- `/(Name|Title|Text|String|Str|Label|Message|Msg)$/`. -/
def strLike (name : String) : Bool :=
  endsAny name ["Name", "Title", "Text", "String", "Str", "Label", "Message", "Msg"]

/-- `/(Count|Index|Idx|Num|Size|Length|Amount|Price|Total)$/`. -/
def numLike (name : String) : Bool :=
  endsAny name ["Count", "Index", "Idx", "Num", "Size", "Length", "Amount", "Price", "Total"]

/-- `/(Id|Key|Code|Uuid)$/`. -/
def idLike (name : String) : Bool :=
  endsAny name ["Id", "Key", "Code", "Uuid"]

/-- `/^(on|handle)[A-Z]/`. -/
def handlerStyle (name : String) : Bool :=
  startsWordUpper name ["on", "handle"]

/-- `originalName.startsWith("use") && originalName.length > 3`. -/
def hookStyle (name : String) : Bool :=
  jsStartsWith name "use" && decide (name.data.length > 3)

/-- `originalName.endsWith("Props") || originalName === "props"`. -/
def propsStyle (name : String) : Bool :=
  jsEndsWith name "Props" || name == "props"

/-- Step 1 of `getReplacement`: the category-driven base tag. -/
def baseTag (typeTag : String) : String :=
  if jsIncludes typeTag "func" then "ACTION"
  else if jsIncludes typeTag "class" then "CLASS"
  else if jsIncludes typeTag "type" then "TYPE"
  else "VAR"

/-- Step 2 of `getReplacement`: the ordered semantic-hint chain of the
source, first match wins; the list-like rule keeps the base tag behind
a `LIST_` marker, the others replace it. -/
def classifyName (name typeTag : String) : String :=
  let base := baseTag typeTag
  if listLike name then "LIST_" ++ base
  else if boolStyle name then "BOOL"
  else if strLike name then "STR"
  else if numLike name then "NUM"
  else if idLike name then "ID"
  else if handlerStyle name then "HANDLER"
  else if hookStyle name then "HOOK"
  else if propsStyle name then "PROPS"
  else base

/-- The spec's view of the classifier: an explicit ordered rule table,
evaluated first-match-wins (spec §4.2).  Compared against
`classifyName` in the C9 theorem. -/
def classifierRules : List ((String → Bool) × (String → String)) :=
  [(listLike, fun base => "LIST_" ++ base),
   (boolStyle, fun _ => "BOOL"),
   (strLike, fun _ => "STR"),
   (numLike, fun _ => "NUM"),
   (idLike, fun _ => "ID"),
   (handlerStyle, fun _ => "HANDLER"),
   (hookStyle, fun _ => "HOOK"),
   (propsStyle, fun _ => "PROPS")]

/-- First-match-wins evaluation of an ordered rule table. -/
def firstMatch (name base : String) : List ((String → Bool) × (String → String)) → String
  | [] => base
  | (p, f) :: rs => if p name then f base else firstMatch name base rs

/-- The classifier as the spec describes it: base tag by category, then
the ordered rule table. -/
def specClassify (name typeTag : String) : String :=
  firstMatch name (baseTag typeTag) classifierRules

/-! ## Reserved names, options, language table -/

/-- The `RESERVED_NAMES` set of the source. -/
def RESERVED_NAMES : List String :=
  ["console", "window", "document", "process", "global", "Math", "JSON",
   "Object", "Array", "String", "Number", "Boolean", "Date", "Promise",
   "Error", "React", "useState", "useEffect", "useCallback", "useMemo",
   "useRef", "useContext", "module", "exports", "require", "import",
   "export", "from", "as", "any", "string", "number", "boolean", "void",
   "null", "undefined", "never", "unknown"]

inductive WhitelistMode where
  | append
  | overwrite
deriving DecidableEq

structure SanitizeOptions where
  maskVars : Bool
  maskFuncs : Bool
  maskClasses : Bool
  maskStrings : Bool
  removeComments : Bool
  whitelist : List String
  whitelistMode : WhitelistMode
deriving DecidableEq

/-- Step 0 of `sanitize`: the active reserved set. -/
def activeReserved (opts : SanitizeOptions) : List String :=
  if opts.whitelistMode = WhitelistMode.overwrite then opts.whitelist
  else RESERVED_NAMES ++ opts.whitelist

/-- `_getWasmFile`. -/
def getWasmFile (languageId : String) : String :=
  if languageId = "python" then "tree-sitter-python.wasm"
  else if jsIncludes languageId "react" then "tree-sitter-tsx.wasm"
  else if jsIncludes languageId "typescript" || jsIncludes languageId "javascript" then
    "tree-sitter-typescript.wasm"
  else ""

/-- The keys of the source's `QUERIES` table (after the React/JS aliases
are added). -/
def queriesKeys : List String :=
  ["python", "typescript", "typescriptreact", "javascript", "javascriptreact"]

/-! ## The mapping table and `getReplacement` -/

/-- The sanitizer's mutable state: forward map (original → masked),
backward map (masked → original), per-category counters. -/
structure SanState where
  mapForward : List (String × String)
  mapBackward : List (String × String)
  typeCounters : List (String × Nat)
deriving DecidableEq

def emptySt : SanState :=
  { mapForward := [], mapBackward := [], typeCounters := [] }

/-- A masked name `` `${pfx}_${count}` ``. -/
def mkMasked (pfx : String) (count : Nat) : String :=
  pfx ++ "_" ++ String.mk (toDec count)

/-- `getReplacement`: return the existing masked name, or classify,
bump the lower-cased per-category counter, mint `PFX_n`, and record the
pair in both maps. -/
def getReplacement (st : SanState) (originalName typeTag : String) : String × SanState :=
  match List.lookup originalName st.mapForward with
  | some m => (m, st)
  | none =>
    let pfx := classifyName originalName typeTag
    let key := jsToLower pfx
    let cnt := (List.lookup key st.typeCounters).getD 0 + 1
    let masked := mkMasked pfx cnt
    (masked,
     { mapForward := assocSet st.mapForward originalName masked
       mapBackward := assocSet st.mapBackward masked originalName
       typeCounters := assocSet st.typeCounters key cnt })

/-- One definition capture of the definition query: the node's text and
the capture's tag (`def.func`, `def.var`, …). -/
structure DefCap where
  text : String
  tag : String
deriving DecidableEq

/-- The per-capture body of the definition-collection loop of
`sanitize` (option filtering, length/underscore/reserved exclusion,
then `getReplacement`). -/
def defStep (opts : SanitizeOptions) (reserved : List String)
    (st : SanState) (d : DefCap) : SanState :=
  if jsIncludes d.tag "var" && !opts.maskVars then st
  else if jsIncludes d.tag "func" && !opts.maskFuncs then st
  else if (jsIncludes d.tag "class" || jsIncludes d.tag "type") && !opts.maskClasses then st
  else if d.text.data.length < 2 then st
  else if jsStartsWith d.text "_" then st
  else if reserved.contains d.text then st
  else if (List.lookup d.text st.mapForward).isSome then st
  else (getReplacement st d.text d.tag).2

def collectDefs (opts : SanitizeOptions) (reserved : List String)
    (defs : List DefCap) (st : SanState) : SanState :=
  defs.foldl (defStep opts reserved) st

/-! ## The replacement pass -/

/-- One capture of the replacement query: the node's span in the source
text, its text, the capture name (`ident`, `cmt` or `str`) and the
node's parent type (used to keep import/export paths). -/
structure Capture where
  start : Nat
  stop : Nat
  text : String
  name : String
  parentType : String
deriving DecidableEq

/-- The comment tag for counter value `n`. -/
def cmtTagStr (n : Nat) : String :=
  "[[CMT_" ++ String.mk (toDec n) ++ "]]"

/-- The string tag for counter value `n`. -/
def strTagStr (n : Nat) : String :=
  "[[STR_" ++ String.mk (toDec n) ++ "]]"

/-- The comment branch of the replacement loop: classify the comment's
flavor by its opening delimiter, re-emit the delimiters around the tag,
and extract the inner content to store backward. -/
def cmtMask (text tg : String) : String × String :=
  if jsStartsWith text "//" then ("//" ++ tg, jsSubstring1 text 2)
  else if jsStartsWith text "/**" then
    ("/**" ++ tg ++ "*/", jsSubstring2 text 3 (text.data.length - 2))
  else if jsStartsWith text "/*" then
    ("/*" ++ tg ++ "*/", jsSubstring2 text 2 (text.data.length - 2))
  else (tg, text)

/-- The text spliced over a capture's span, `none` when the loop leaves
the span alone.  Mirrors the `cmt` / `str` / identifier branches of the
replacement loop of `sanitize`. -/
def stepRepl (st : SanState) (cap : Capture) : Option String :=
  if cap.name = "cmt" then
    let n := (List.lookup "CMT" st.typeCounters).getD 0 + 1
    some (cmtMask cap.text (cmtTagStr n)).1
  else if cap.name = "str" then
    if cap.parentType = "import_statement" ∨ cap.parentType = "export_statement" then none
    else
      match List.lookup cap.text st.mapForward with
      | some t => some t
      | none =>
        let n := (List.lookup "STR" st.typeCounters).getD 0 + 1
        some ("\"" ++ strTagStr n ++ "\"")
  else
    List.lookup cap.text st.mapForward

/-- The state update of one iteration of the replacement loop. -/
def stepState (st : SanState) (cap : Capture) : SanState :=
  if cap.name = "cmt" then
    let n := (List.lookup "CMT" st.typeCounters).getD 0 + 1
    { st with
      mapBackward := assocSet st.mapBackward (cmtTagStr n) (cmtMask cap.text (cmtTagStr n)).2
      typeCounters := assocSet st.typeCounters "CMT" n }
  else if cap.name = "str" then
    if cap.parentType = "import_statement" ∨ cap.parentType = "export_statement" then st
    else if (List.lookup cap.text st.mapForward).isSome then st
    else
      let n := (List.lookup "STR" st.typeCounters).getD 0 + 1
      let raw := strTagStr n
      { st with
        mapForward := assocSet st.mapForward cap.text ("\"" ++ raw ++ "\"")
        mapBackward := assocSet st.mapBackward raw cap.text
        typeCounters := assocSet st.typeCounters "STR" n }
  else st

/-- The text update of one iteration of the replacement loop. -/
def stepText (txt : List Char) (st : SanState) (cap : Capture) : List Char :=
  match stepRepl st cap with
  | none => txt
  | some r => spliceL txt cap.start cap.stop r.data

/-- One iteration of the replacement loop: splice, then update state. -/
def procStep (acc : List Char × SanState) (cap : Capture) : List Char × SanState :=
  (stepText acc.1 acc.2 cap, stepState acc.2 cap)

/-- The capture filter induced by building the replacement query: the
identifier patterns are always present, `(comment)` only with
`removeComments`, `(string)` / `(template_string)` only with
`maskStrings`. -/
def capKept (opts : SanitizeOptions) (c : Capture) : Bool :=
  c.name == "ident" || (c.name == "cmt" && opts.removeComments)
    || (c.name == "str" && opts.maskStrings)

/-- The sort comparator `(a, b) => b.node.startIndex - a.node.startIndex`
(descending start index). -/
def capDesc (a b : Capture) : Prop :=
  b.start ≤ a.start

instance : DecidableRel capDesc := fun a b => Nat.decLe b.start a.start

instance : IsTotal Capture capDesc :=
  ⟨fun a b => Nat.le_total b.start a.start⟩

instance : IsTrans Capture capDesc :=
  ⟨fun _ _ _ h1 h2 => Nat.le_trans h2 h1⟩

/-- Pass 2 of `sanitize`: filter the captures the active query yields,
sort them by descending start index, splice each in turn. -/
def replacePass (opts : SanitizeOptions) (code : List Char)
    (caps : List Capture) (st : SanState) : List Char × SanState :=
  let sorted := List.insertionSort capDesc (caps.filter (capKept opts))
  sorted.foldl procStep (code, st)

/-! ## `sanitize` -/

/-- The query-table key for a language id (React and JavaScript reuse
the TypeScript definition query). -/
def queryKeyOf (languageId : String) : String :=
  if jsIncludes languageId "react" || languageId == "javascript" then "typescript"
  else languageId

/-- The external world of one `sanitize` call: is the parser already
constructed, do `Parser.init`, `Language.load` and the two `new Query`
calls succeed, and what captures does the parse yield. -/
structure SanEnv where
  parserInited : Bool
  initOk : Bool
  loadOk : Bool
  defQueryOk : Bool
  replaceQueryOk : Bool
  defCaptures : List DefCap
  captures : List Capture
deriving DecidableEq

/-- `sanitize`, returning the sanitized text, the mapping handed to the
caller (`Object.fromEntries(this.mapBackward)`), and the engine's state
at exit.  `Parser.init` failure escapes the try/catch (it happens
before it); `Language.load` and `new Query` failures are caught and
yield the unmodified input with an empty mapping. -/
def sanitizeModelFull (env : SanEnv) (code languageId : String)
    (opts : SanitizeOptions) : Except String (String × List (String × String) × SanState) :=
  if !env.parserInited && !env.initOk then .error "Tree-sitter init failed"
  else
    let reserved := activeReserved opts
    if getWasmFile languageId = "" then .ok (code, [], emptySt)
    else if !env.loadOk then .ok (code, [], emptySt)
    else
      if queriesKeys.contains (queryKeyOf languageId) then
        if !env.defQueryOk then .ok (code, [], emptySt)
        else
          let st1 := collectDefs opts reserved env.defCaptures emptySt
          if !env.replaceQueryOk then .ok (code, [], st1)
          else
            let r := replacePass opts code.data env.captures st1
            .ok (String.mk r.1, r.2.mapBackward, r.2)
      else
        if !env.replaceQueryOk then .ok (code, [], emptySt)
        else
          let r := replacePass opts code.data env.captures emptySt
          .ok (String.mk r.1, r.2.mapBackward, r.2)

/-- `sanitize` as the caller sees it: sanitized text plus mapping. -/
def sanitizeModel (env : SanEnv) (code languageId : String)
    (opts : SanitizeOptions) : Except String (String × List (String × String)) :=
  (sanitizeModelFull env code languageId opts).map fun r => (r.1, r.2.1)

/-- The engine state at exit of a `sanitize` call (the cleared state
when the call never got past `Parser.init`). -/
def resultState (r : Except String (String × List (String × String) × SanState)) : SanState :=
  match r with
  | .ok v => v.2.2
  | .error _ => emptySt

/-! ## Restoration (`_restoreByRegex`, `restoreWithMap`)

The three passes are regex scans; each is embedded as a left-to-right
scanner with the exact matching discipline of the JavaScript regexes
(leftmost match, continue after the match, replacements are not
rescanned). -/

/-- Leftmost-anchored match of `\[\[KIND_\d+\]\]` at the head of `l`:
`some (match, rest)` or `none`. -/
def matchTagAt (kind : List Char) (l : List Char) : Option (List Char × List Char) :=
  if ('[' :: '[' :: (kind ++ ['_'])).isPrefixOf l then
    if (List.takeWhile isDigitC (l.drop (kind.length + 3))).isEmpty then none
    else
      if [']', ']'].isPrefixOf
          ((l.drop (kind.length + 3)).drop
            (List.takeWhile isDigitC (l.drop (kind.length + 3))).length) then
        some
          (('[' :: '[' :: (kind ++ ['_'])) ++
              List.takeWhile isDigitC (l.drop (kind.length + 3)) ++ [']', ']'],
            ((l.drop (kind.length + 3)).drop
              (List.takeWhile isDigitC (l.drop (kind.length + 3))).length).drop 2)
      else none
  else none

/-- Global replace of `\[\[KIND_\d+\]\]`: a matched tag found in the
map is replaced by `f` of its stored value, an unmatched tag is kept;
fuel-structured on the text length. -/
def replaceTagsAux (kind : List Char) (m : List (String × String))
    (f : String → List Char) : Nat → List Char → List Char
  | 0, l => l
  | _ + 1, [] => []
  | fuel + 1, c :: rest =>
    match matchTagAt kind (c :: rest) with
    | some (tg, after) =>
      (match List.lookup (String.mk tg) m with
       | some v => f v
       | none => tg) ++ replaceTagsAux kind m f fuel after
    | none => c :: replaceTagsAux kind m f fuel rest

def replaceTags (kind : List Char) (m : List (String × String))
    (f : String → List Char) (l : List Char) : List Char :=
  replaceTagsAux kind m f l.length l

/-- Does the `\[\[KIND_\d+\]\]` scan ever hit a tag that is a key of
the map? -/
def tagHitAux (kind : List Char) (m : List (String × String)) :
    Nat → List Char → Bool
  | 0, _ => false
  | _ + 1, [] => false
  | fuel + 1, c :: rest =>
    match matchTagAt kind (c :: rest) with
    | some (tg, after) =>
      (List.lookup (String.mk tg) m).isSome || tagHitAux kind m fuel after
    | none => tagHitAux kind m fuel rest

def tagHit (kind : List Char) (m : List (String × String)) (l : List Char) : Bool :=
  tagHitAux kind m l.length l

/-- `wordAt`: is an optional character a word character (text edges
count as non-word, as for `\b`)? -/
def wordAt : Option Char → Bool
  | none => false
  | some c => isWordC c

/-- Does a word-boundary-delimited occurrence of `n0 :: ntl` sit at the
head of `l` (`prev` is the character just before `l`)? -/
def wbHit (n0 : Char) (ntl : List Char) (prev : Option Char) (l : List Char) : Bool :=
  (n0 :: ntl).isPrefixOf l && (wordAt prev != isWordC n0)
    && (isWordC (ntl.getLastD n0) != wordAt (l.drop (n0 :: ntl).length).head?)

/-- Global replace of `new RegExp("\\b" + masked + "\\b", "g")`: an
occurrence of the needle is replaced when a word boundary (`\b`,
word/non-word transition) holds on both sides; scanning continues after
the occurrence and replacements are not rescanned. -/
def rwaAux (n0 : Char) (ntl : List Char) (repl : List Char) :
    Nat → Option Char → List Char → List Char
  | 0, _, l => l
  | _ + 1, _, [] => []
  | fuel + 1, prev, c :: rest =>
    if wbHit n0 ntl prev (c :: rest) then
      repl ++ rwaAux n0 ntl repl fuel (some (ntl.getLastD n0))
        ((c :: rest).drop (n0 :: ntl).length)
    else
      c :: rwaAux n0 ntl repl fuel (some c) rest

def replaceWordAll (needle repl hay : List Char) : List Char :=
  match needle with
  | [] => hay
  | n0 :: ntl => rwaAux n0 ntl repl hay.length none hay

/-- Does the needle occur word-bounded in the hay (would the `\b…\b`
replace fire at least once)? -/
def woAux (n0 : Char) (ntl : List Char) : Nat → Option Char → List Char → Bool
  | 0, _, _ => false
  | _ + 1, _, [] => false
  | fuel + 1, prev, c :: rest =>
    if wbHit n0 ntl prev (c :: rest) then true
    else woAux n0 ntl fuel (some c) rest

def wordOccurs (needle hay : List Char) : Bool :=
  match needle with
  | [] => false
  | n0 :: ntl => woAux n0 ntl hay.length none hay

/-- Step 3 of `_restoreByRegex`: for every entry of the map in
insertion order, skip masked names starting with `STR` or `[[`, and
globally replace the remaining masked names word-bounded. -/
def identPass (m : List (String × String)) (t : List Char) : List Char :=
  m.foldl
    (fun acc kv =>
      if jsStartsWith kv.1 "STR" then acc
      else if jsStartsWith kv.1 "[[" then acc
      else replaceWordAll kv.1.data kv.2.data acc)
    t

/-- The value transform of the `[[STR_n]]` pass:
`originalWithQuotes.substring(1, originalWithQuotes.length - 1)`. -/
def strContent (v : String) : List Char :=
  (jsSubstring2 v 1 (v.data.length - 1)).data

/-- The value transform of the `[[CMT_n]]` pass: the stored content
itself. -/
def cmtContent (v : String) : List Char :=
  v.data

def strKind : List Char := ['S', 'T', 'R']

def cmtKind : List Char := ['C', 'M', 'T']

/-- `_restoreByRegex` over character lists: the `[[STR_n]]` pass, the
`[[CMT_n]]` pass, then the word-bounded identifier pass. -/
def restoreChars (code : List Char) (m : List (String × String)) : List Char :=
  identPass m (replaceTags cmtKind m cmtContent (replaceTags strKind m strContent code))

/-- `_restoreByRegex`. -/
def restoreByRegex (code : String) (m : List (String × String)) : String :=
  String.mk (restoreChars code.data m)

/-- The mapping argument of `restoreWithMap`: a JSON string, a plain
object, or a `Map`. -/
inductive MappingArg where
  | strArg (s : String)
  | objArg (entries : List (String × String))
  | mapArg (entries : List (String × String))
deriving DecidableEq

/-- The value `JSON.parse` yields on a mapping string, as consumed by
`Object.entries`: JSON `null` (on which `Object.entries` throws — still
inside the same `try`), or a value together with its — possibly
empty — entries list (objects; primitives have no own entries). -/
inductive JsonVal where
  | jnull
  | jentries (entries : List (String × String))
deriving DecidableEq

/-- The platform regex engine, viewed through the one operation the
identifier pass performs per masked name: does
`new RegExp("\\b" + maskedName + "\\b", "g")` construct without
throwing a `SyntaxError`? Whenever the name is made of word
characters the pattern is a valid regex and matches the name literally
between word boundaries, exactly as `replaceWordAll` renders it; names
holding regex metacharacters can make the construction throw. -/
structure RegexEnv where
  compileOk : String → Bool

/-- One `forEach` iteration of pass 3 of `_restoreByRegex`, with the
`new RegExp` construction modeled: an already-thrown `SyntaxError`
aborts the iteration, a masked name starting `STR` or `[[` is skipped,
and a non-skipped name either fails to construct (throw) or is
replaced word-bounded. -/
def identStepE (env : RegexEnv) (acc : Except String (List Char))
    (kv : String × String) : Except String (List Char) :=
  match acc with
  | .error e => .error e
  | .ok cur =>
    if jsStartsWith kv.1 "STR" then .ok cur
    else if jsStartsWith kv.1 "[[" then .ok cur
    else if env.compileOk kv.1 then .ok (replaceWordAll kv.1.data kv.2.data cur)
    else .error "SyntaxError: Invalid regular expression"

/-- Pass 3 of `_restoreByRegex` with the `new RegExp` throw modeled:
the `forEach` aborts at the first non-skipped masked name whose
`\b…\b` pattern fails to construct, and nothing catches the error. -/
def identPassE (env : RegexEnv) (m : List (String × String))
    (t : List Char) : Except String (List Char) :=
  m.foldl (identStepE env) (.ok t)

/-- `_restoreByRegex` with the pass-3 `new RegExp` throw modeled (the
pass-1/2 patterns are fixed literals and always construct). -/
def restoreByRegexE (env : RegexEnv) (code : String)
    (m : List (String × String)) : Except String String :=
  (identPassE env m
    (replaceTags cmtKind m cmtContent
      (replaceTags strKind m strContent code.data))).map String.mk

/-- The mapping-normalisation prologue of `restoreWithMap`: `none`
exactly when the `try` block throws — `JSON.parse` rejecting the
string, or `Object.entries(null)` throwing on the parse result
`null`; object and `Map` arguments normalise to their entries. -/
def normEntries (jsonParse : String → Option JsonVal) :
    MappingArg → Option (List (String × String))
  | .strArg s =>
    match jsonParse s with
    | some (.jentries entries) => some entries
    | some .jnull => none
    | none => none
  | .objArg entries => some entries
  | .mapArg entries => some entries

/-- `restoreWithMap`, parameterised by the platform's `JSON.parse` and
regex engine: a failing normalisation raises
`Invalid JSON format for Map Table.`; otherwise `_restoreByRegex` runs
and its `SyntaxError`, if any, propagates to the caller. -/
def restoreWithMapE (env : RegexEnv) (jsonParse : String → Option JsonVal)
    (code : String) (arg : MappingArg) : Except String String :=
  match normEntries jsonParse arg with
  | some entries => restoreByRegexE env code entries
  | none => .error "Invalid JSON format for Map Table."

/-- A regex-engine instantiation correct on every masked name
exercised in this development: word-character names construct, and
`((` — whose pattern `\b((\b` has unbalanced groups — does not. -/
def rxWordOnly : RegexEnv :=
  { compileOk := fun k => k.data.all isWordC }

/-- A `JSON.parse` instantiation correct on the strings exercised
here: `"null"` is valid JSON and parses to `null`. -/
def jsonParseNull : String → Option JsonVal :=
  fun s => if s = "null" then some .jnull else none

/-- `Except.isOk` as a Bool, to state error behaviour. -/
def isErr {ε α : Type} : Except ε α → Bool
  | .error _ => true
  | .ok _ => false

/-! ## Concrete scenarios used by the counterexamples -/

deriving instance DecidableEq for Except

/-- `const userName = 1;` in TypeScript: one variable definition whose
name the classifier hints as string-like, one identifier capture. -/
def envStrIdent : SanEnv :=
  { parserInited := true, initOk := true, loadOk := true, defQueryOk := true,
    replaceQueryOk := true,
    defCaptures := [⟨"userName", "def.var"⟩],
    captures := [⟨6, 14, "userName", "ident", "variable_declarator"⟩] }

/-- Identifier masking only. -/
def optsIdentOnly : SanitizeOptions :=
  { maskVars := true, maskFuncs := true, maskClasses := true,
    maskStrings := false, removeComments := false,
    whitelist := [], whitelistMode := .append }

/-- All masking options on. -/
def optsAll : SanitizeOptions :=
  { maskVars := true, maskFuncs := true, maskClasses := true,
    maskStrings := true, removeComments := true,
    whitelist := [], whitelistMode := .append }

/-- `"x"` followed by two identical line comments `// a`. -/
def envDupCmt : SanEnv :=
  { parserInited := true, initOk := true, loadOk := true, defQueryOk := true,
    replaceQueryOk := true,
    defCaptures := [],
    captures := [⟨0, 3, "\"x\"", "str", "expression_statement"⟩,
                 ⟨4, 8, "// a", "cmt", "program"⟩,
                 ⟨9, 13, "// a", "cmt", "program"⟩] }

/-- A lone string literal `"hi"`. -/
def envStrLit : SanEnv :=
  { parserInited := true, initOk := true, loadOk := true, defQueryOk := true,
    replaceQueryOk := true,
    defCaptures := [],
    captures := [⟨0, 4, "\"hi\"", "str", "expression_statement"⟩] }

/-- A lone degenerate block comment `/**/`. -/
def envEmptyCmt : SanEnv :=
  { parserInited := true, initOk := true, loadOk := true, defQueryOk := true,
    replaceQueryOk := true,
    defCaptures := [],
    captures := [⟨0, 4, "/**/", "cmt", "program"⟩] }

/-- The engine before any parser exists, with `Parser.init` failing. -/
def envInitFail : SanEnv :=
  { parserInited := false, initOk := false, loadOk := true, defQueryOk := true,
    replaceQueryOk := true, defCaptures := [], captures := [] }

/-! ## C1 — round trip through `restoreWithMap`

The identifier pass of `_restoreByRegex` skips every mapping key that
starts with `STR`, so an identifier the classifier tagged `STR`
(masked `STR_1`) is never restored: the round trip the spec claims
fails on `const userName = 1;`. -/

/-- C1: on `const userName = 1;` (a maskable identifier classified with
the `STR` prefix, literal masking and comment removal disabled),
`sanitize` yields `const STR_1 = 1;` with mapping `{STR_1: userName}`,
and `restoreWithMap` on that output with that mapping returns the
masked text unchanged — not the original: the claimed round trip fails. -/
theorem roundTrip_fails_on_strHinted_identifier :
    sanitizeModel envStrIdent "const userName = 1;" "typescript" optsIdentOnly =
      .ok ("const STR_1 = 1;", [("STR_1", "userName")]) ∧
    restoreWithMapE rxWordOnly (fun _ => none) "const STR_1 = 1;"
      (.objArg [("STR_1", "userName")]) = .ok "const STR_1 = 1;" ∧
    "const STR_1 = 1;" ≠ "const userName = 1;" := by
  refine ⟨by decide, by decide, by decide⟩

/-! ## C3 — error handling of `sanitize` -/

/-- C3 counterexample: when the parser engine is not yet constructed
and `Parser.init` fails, `sanitize` raises (the `init()` call happens
before the try/catch) instead of returning the input with an empty
mapping. -/
theorem parserInitFailure_raises :
    sanitizeModel envInitFail "x" "typescript" optsIdentOnly =
      .error "Tree-sitter init failed" ∧
    sanitizeModel envInitFail "x" "typescript" optsIdentOnly ≠ .ok ("x", []) := by
  refine ⟨by decide, by decide⟩

/-- C3 as amended: an unsupported language, a grammar (`Language.load`)
failure, and a query-construction failure all fail open — `sanitize`
returns the input text unmodified with an empty mapping and raises
nothing — while a parser-engine initialisation failure raises. -/
theorem sanitize_failOpen_except_parserInit :
    ∀ (env : SanEnv) (code languageId : String) (opts : SanitizeOptions),
      ((env.parserInited || env.initOk) = true →
        (getWasmFile languageId = "" ∨ env.loadOk = false ∨
          env.replaceQueryOk = false ∨
          (queriesKeys.contains (queryKeyOf languageId) = true ∧ env.defQueryOk = false)) →
        sanitizeModel env code languageId opts = .ok (code, [])) ∧
      (env.parserInited = false → env.initOk = false →
        sanitizeModel env code languageId opts = .error "Tree-sitter init failed") := by
  intro env code languageId opts
  constructor
  · intro hinit hfail
    have hinit' : (!env.parserInited && !env.initOk) = false := by
      cases hp : env.parserInited <;> cases hi : env.initOk <;> simp_all
    unfold sanitizeModel sanitizeModelFull
    rcases hfail with hw | hl | hr | ⟨hq, hd⟩
    · simp [hinit', hw, Except.map]
    · by_cases hw : getWasmFile languageId = ""
      · simp [hinit', hw, Except.map]
      · simp [hinit', hw, hl, Except.map]
    · by_cases hw : getWasmFile languageId = ""
      · simp [hinit', hw, Except.map]
      · by_cases hl : env.loadOk
        · by_cases hq : queriesKeys.contains (queryKeyOf languageId)
          · have hq' : queryKeyOf languageId ∈ queriesKeys := by simpa using hq
            by_cases hd : env.defQueryOk
            · simp [hinit', hw, hl, hq', hd, hr, Except.map]
            · simp [hinit', hw, hl, hq', hd, Except.map]
          · have hq' : queryKeyOf languageId ∉ queriesKeys := by simpa using hq
            simp [hinit', hw, hl, hq', hr, Except.map]
        · simp [hinit', hw, hl, Except.map]
    · by_cases hw : getWasmFile languageId = ""
      · simp [hinit', hw, Except.map]
      · by_cases hl : env.loadOk
        · have hq' : queryKeyOf languageId ∈ queriesKeys := by simpa using hq
          simp [hinit', hw, hl, hq', hd, Except.map]
        · simp [hinit', hw, hl, Except.map]
  · intro hp hi
    unfold sanitizeModel sanitizeModelFull
    simp [hp, hi, Except.map]

/-! ## C7 — `restoreWithMap` error behaviour -/

theorem foldl_identStepE_error (env : RegexEnv) (m : List (String × String))
    (e : String) : m.foldl (identStepE env) (.error e) = .error e := by
  induction m with
  | nil => rfl
  | cons kv rest ih =>
    rw [List.foldl_cons]
    exact ih

theorem isErr_map {ε α β : Type} (f : α → β) (x : Except ε α) :
    isErr (x.map f) = isErr x := by
  cases x <;> rfl

/-- The identifier pass throws exactly when the map holds a
non-skipped masked name whose `\b…\b` pattern fails to construct. -/
theorem identPassE_err_iff (env : RegexEnv) (m : List (String × String)) :
    ∀ t, isErr (identPassE env m t) = true ↔
      ∃ kv ∈ m, jsStartsWith kv.1 "STR" = false ∧
        jsStartsWith kv.1 "[[" = false ∧ env.compileOk kv.1 = false := by
  induction m with
  | nil =>
    intro t
    simp [identPassE, isErr]
  | cons kv rest ih =>
    intro t
    by_cases h1 : jsStartsWith kv.1 "STR" = true
    · rw [show identPassE env (kv :: rest) t = identPassE env rest t by
        simp [identPassE, identStepE, h1]]
      rw [ih t]
      constructor
      · intro ⟨kv', h, hc⟩
        exact ⟨kv', by simp [h], hc⟩
      · intro ⟨kv', h, hc⟩
        rcases List.mem_cons.mp h with rfl | h2
        · rw [h1] at hc
          exact absurd hc.1 (by simp)
        · exact ⟨kv', h2, hc⟩
    · by_cases h2 : jsStartsWith kv.1 "[[" = true
      · rw [show identPassE env (kv :: rest) t = identPassE env rest t by
          simp [identPassE, identStepE, h1, h2]]
        rw [ih t]
        constructor
        · intro ⟨kv', h, hc⟩
          exact ⟨kv', by simp [h], hc⟩
        · intro ⟨kv', h, hc⟩
          rcases List.mem_cons.mp h with rfl | h3
          · rw [h2] at hc
            exact absurd hc.2.1 (by simp)
          · exact ⟨kv', h3, hc⟩
      · by_cases h3 : env.compileOk kv.1 = true
        · rw [show identPassE env (kv :: rest) t =
              identPassE env rest (replaceWordAll kv.1.data kv.2.data t) by
            simp [identPassE, identStepE, h1, h2, h3]]
          rw [ih _]
          constructor
          · intro ⟨kv', h, hc⟩
            exact ⟨kv', by simp [h], hc⟩
          · intro ⟨kv', h, hc⟩
            rcases List.mem_cons.mp h with rfl | h4
            · rw [h3] at hc
              exact absurd hc.2.2 (by simp)
            · exact ⟨kv', h4, hc⟩
        · rw [show identPassE env (kv :: rest) t = rest.foldl (identStepE env)
              (.error "SyntaxError: Invalid regular expression") by
            simp [identPassE, identStepE, h1, h2, h3]]
          rw [foldl_identStepE_error]
          constructor
          · intro _
            exact ⟨kv, by simp, by simpa using h1, by simpa using h2, by simpa using h3⟩
          · intro _
            rfl

/-- C7 as amended: `restoreWithMap` raises exactly when the mapping
normalisation throws — the argument is a string that `JSON.parse`
rejects, or the valid-JSON string `null`, on whose parse result
`Object.entries` throws inside the same `try` — or the normalised map
holds a non-skipped masked name from which
`new RegExp("\\b" + name + "\\b", "g")` fails to construct, the
`SyntaxError` escaping `restoreWithMap` uncaught. -/
theorem restoreWithMap_error_characterization :
    ∀ (env : RegexEnv) (jsonParse : String → Option JsonVal) (code : String)
      (arg : MappingArg),
      isErr (restoreWithMapE env jsonParse code arg) = true ↔
        ((∃ s, arg = .strArg s ∧
            (jsonParse s = none ∨ jsonParse s = some .jnull)) ∨
         (∃ entries, normEntries jsonParse arg = some entries ∧
            ∃ kv ∈ entries, jsStartsWith kv.1 "STR" = false ∧
              jsStartsWith kv.1 "[[" = false ∧ env.compileOk kv.1 = false)) := by
  intro env jsonParse code arg
  have hmain : ∀ entries, normEntries jsonParse arg = some entries →
      (isErr (restoreByRegexE env code entries) = true ↔
        ∃ kv ∈ entries, jsStartsWith kv.1 "STR" = false ∧
          jsStartsWith kv.1 "[[" = false ∧ env.compileOk kv.1 = false) := by
    intro entries _
    unfold restoreByRegexE
    rw [isErr_map]
    exact identPassE_err_iff env entries _
  cases arg with
  | strArg s =>
    cases hj : jsonParse s with
    | none =>
      have hn : normEntries jsonParse (.strArg s) = none := by
        simp [normEntries, hj]
      simp [restoreWithMapE, hn, isErr, hj]
    | some v =>
      cases v with
      | jnull =>
        have hn : normEntries jsonParse (.strArg s) = none := by
          simp [normEntries, hj]
        simp [restoreWithMapE, hn, isErr, hj]
      | jentries entries =>
        have hn : normEntries jsonParse (.strArg s) = some entries := by
          simp [normEntries, hj]
        rw [show restoreWithMapE env jsonParse code (.strArg s) =
            restoreByRegexE env code entries by simp [restoreWithMapE, hn]]
        rw [hmain entries hn]
        constructor
        · intro h
          exact Or.inr ⟨entries, hn, h⟩
        · intro h
          rcases h with ⟨s', hs', hbad⟩ | ⟨entries', hn', h⟩
          · have : s' = s := by
              cases hs'
              rfl
            subst this
            rw [hj] at hbad
            rcases hbad with h | h
            · exact absurd h (by simp)
            · simp at h
          · rw [hn] at hn'
            cases hn'
            exact h
  | objArg entries =>
    have hn : normEntries jsonParse (.objArg entries) = some entries := rfl
    rw [show restoreWithMapE env jsonParse code (.objArg entries) =
        restoreByRegexE env code entries by simp [restoreWithMapE, hn]]
    rw [hmain entries hn]
    constructor
    · intro h
      exact Or.inr ⟨entries, hn, h⟩
    · intro h
      rcases h with ⟨s', hs', _⟩ | ⟨entries', hn', h⟩
      · exact absurd hs' (by simp)
      · cases hn'
        exact h
  | mapArg entries =>
    have hn : normEntries jsonParse (.mapArg entries) = some entries := rfl
    rw [show restoreWithMapE env jsonParse code (.mapArg entries) =
        restoreByRegexE env code entries by simp [restoreWithMapE, hn]]
    rw [hmain entries hn]
    constructor
    · intro h
      exact Or.inr ⟨entries, hn, h⟩
    · intro h
      rcases h with ⟨s', hs', _⟩ | ⟨entries', hn', h⟩
      · exact absurd hs' (by simp)
      · cases hn'
        exact h

/-- C7 counterexample: "raises iff a string that is not valid JSON"
fails on both sides — the valid-JSON string `null` raises (its parse
result makes `Object.entries` throw inside the same `catch`), and a
`Map` argument carrying the masked name `((` raises a `SyntaxError`
from `new RegExp("\\b((\\b", "g")` although it is not a string at
all. -/
theorem restoreWithMap_raises_beyond_bad_json :
    isErr (restoreWithMapE rxWordOnly jsonParseNull "code" (.strArg "null")) = true ∧
    isErr (restoreWithMapE rxWordOnly jsonParseNull "code"
      (.mapArg [("((", "x")])) = true := by
  exact ⟨by decide, by decide⟩

/-! ## C9 — the classifier's rule order -/

/-- C9: the classifier is the first-match evaluation of the spec's
ordered rule table (list-like, boolean-style, string-like,
numeric-style, id-like, handler-style, hook-style, props) over the
category base tag; in particular a list-like name keeps the `LIST`
tag even when a later rule (such as the boolean-style one) also
matches. -/
theorem classifier_first_match_order :
    ∀ (name typeTag : String),
      classifyName name typeTag = specClassify name typeTag ∧
      (listLike name = true → boolStyle name = true →
        classifyName name typeTag = "LIST_" ++ baseTag typeTag) := by
  intro name typeTag
  constructor
  · rfl
  · intro h1 _
    simp [classifyName, h1]

/-- C9 witness: `isItems` matches both the list-like rule and the
boolean-style rule; the classifier resolves it to the first. -/
theorem classifier_first_match_order_witness :
    listLike "isItems" = true ∧ boolStyle "isItems" = true ∧
    classifyName "isItems" "def.var" = "LIST_VAR" := by
  refine ⟨by decide, by decide, ?_⟩
  exact (classifier_first_match_order "isItems" "def.var").2 (by decide) (by decide)

/-! ## C2 — bijection of the mapping tables -/

/-- C2 counterexample: sanitizing `"x"` followed by two identical line
comments `// a` (with string masking and comment removal on) leaves
the tables non-bijective: two distinct comment tags map back to the
same original, comment tags have no forward entry at all, and the
string literal's forward value `"[[STR_1]]"` (quotes included) is not
a backward key — forward and backward are not mutual inverses. -/
theorem mapping_not_bijective_with_literals :
    List.lookup "[[CMT_1]]"
        (resultState (sanitizeModelFull envDupCmt "\"x\"\n// a\n// a" "typescript" optsAll)).mapBackward
      = some " a" ∧
    List.lookup "[[CMT_2]]"
        (resultState (sanitizeModelFull envDupCmt "\"x\"\n// a\n// a" "typescript" optsAll)).mapBackward
      = some " a" ∧
    "[[CMT_1]]" ≠ "[[CMT_2]]" ∧
    List.lookup " a"
        (resultState (sanitizeModelFull envDupCmt "\"x\"\n// a\n// a" "typescript" optsAll)).mapForward
      = none ∧
    List.lookup "\"x\""
        (resultState (sanitizeModelFull envDupCmt "\"x\"\n// a\n// a" "typescript" optsAll)).mapForward
      = some "\"[[STR_1]]\"" ∧
    List.lookup "\"[[STR_1]]\""
        (resultState (sanitizeModelFull envDupCmt "\"x\"\n// a\n// a" "typescript" optsAll)).mapBackward
      = none := by
  refine ⟨by decide, by decide, by decide, by decide, by decide, by decide⟩

/-! ## C4 — conservation of untouched tokens -/

/-- C4 counterexample: with `maskStrings` on, the string literal
`"hi"` — a token with no DefinitionOccurrence — is rewritten to
`"[[STR_1]]"` and its text enters the returned mapping as the value of
the minted tag. -/
theorem maskStrings_rewrites_nonDefinition_token :
    sanitizeModel envStrLit "\"hi\"" "typescript" optsAll =
      .ok ("\"[[STR_1]]\"", [("[[STR_1]]", "\"hi\"")]) ∧
    "\"[[STR_1]]\"" ≠ "\"hi\"" ∧
    List.lookup "[[STR_1]]" [("[[STR_1]]", "\"hi\"")] = some "\"hi\"" := by
  refine ⟨by decide, by decide, by decide⟩

/-! ## C6 — comment masking and restoration -/

/-- C6 counterexample: the degenerate block comment `/**/` is
classified as a doc comment; masking re-emits `/**…*/` around the tag
and stores `*` as its content, so restoring the sanitized output gives
`/****/`, not the original comment. -/
theorem degenerate_comment_breaks_roundTrip :
    sanitizeModel envEmptyCmt "/**/" "typescript" optsAll =
      .ok ("/**[[CMT_1]]*/", [("[[CMT_1]]", "*")]) ∧
    restoreByRegex "/**[[CMT_1]]*/" [("[[CMT_1]]", "*")] = "/****/" ∧
    "/****/" ≠ "/**/" := by
  refine ⟨by decide, by decide, by decide⟩

/-! ## Scanner lemmas for the tag passes -/

/-- The characters of a `[[KIND_d]]` tag with digit run `d`. -/
def tagChars (kind d : List Char) : List Char :=
  '[' :: '[' :: kind ++ '_' :: d ++ [']', ']']

theorem isPrefixOf_append_self (l r : List Char) : l.isPrefixOf (l ++ r) = true := by
  induction l with
  | nil => simp [List.isPrefixOf]
  | cons c cs ih => simp [List.isPrefixOf, ih]

theorem eq_append_drop_of_isPrefixOf {p l : List Char} (h : p.isPrefixOf l = true) :
    l = p ++ l.drop p.length := by
  induction p generalizing l with
  | nil => simp
  | cons c cs ih =>
    cases l with
    | nil => simp [List.isPrefixOf] at h
    | cons x xs =>
      simp only [List.isPrefixOf, Bool.and_eq_true, beq_iff_eq] at h
      obtain ⟨rfl, h2⟩ := h
      simpa using ih h2

theorem takeWhile_all_append {p : Char → Bool} {xs : List Char}
    (hall : ∀ x ∈ xs, p x = true) (y : Char) (rest : List Char) (hy : p y = false) :
    List.takeWhile p (xs ++ y :: rest) = xs := by
  induction xs with
  | nil => simp [List.takeWhile, hy]
  | cons c cs ih =>
    have hc : p c = true := hall c (by simp)
    show List.takeWhile p (c :: (cs ++ y :: rest)) = c :: cs
    simp only [List.takeWhile, hc]
    rw [ih (fun x hx => hall x (by simp [hx]))]

/-- The takeWhile segment is what dropping its length leaves behind. -/
theorem drop_takeWhile_length (p : Char → Bool) (l : List Char) :
    l.drop (List.takeWhile p l).length = List.dropWhile p l := by
  induction l with
  | nil => simp
  | cons c cs ih =>
    by_cases h : p c
    · simpa [List.takeWhile, List.dropWhile, h] using ih
    · simp [List.takeWhile, List.dropWhile, h]

/-- Successful tag match at the head of `tagChars kind d ++ rest`. -/
theorem matchTagAt_tag (kind d rest : List Char) (hd : d ≠ [])
    (hdig : ∀ c ∈ d, isDigitC c = true) :
    matchTagAt kind (tagChars kind d ++ rest) = some (tagChars kind d, rest) := by
  have hshape : tagChars kind d ++ rest =
      ('[' :: '[' :: (kind ++ ['_'])) ++ (d ++ ']' :: ']' :: rest) := by
    simp [tagChars]
  have hpre : ('[' :: '[' :: (kind ++ ['_'])).isPrefixOf (tagChars kind d ++ rest) = true := by
    rw [hshape]; exact isPrefixOf_append_self _ _
  have hdroplen : (tagChars kind d ++ rest).drop (kind.length + 3) =
      d ++ ']' :: ']' :: rest := by
    rw [hshape]
    have h3 : ('[' :: '[' :: (kind ++ ['_'])).length = kind.length + 3 := by simp
    rw [← h3]
    exact List.drop_left _ _
  have htw : List.takeWhile isDigitC (d ++ ']' :: ']' :: rest) = d :=
    takeWhile_all_append hdig ']' _ (by decide)
  have hde : d.isEmpty = false := by
    cases d with
    | nil => exact absurd rfl hd
    | cons c cs => rfl
  have hdrop2 : (d ++ ']' :: ']' :: rest).drop d.length = ']' :: ']' :: rest :=
    List.drop_left d _
  have hpre2 : [']', ']'].isPrefixOf (']' :: ']' :: rest) = true := by
    simp [List.isPrefixOf]
  unfold matchTagAt
  rw [hpre, hdroplen, htw, hdrop2]
  simp only [hde, Bool.false_eq_true, if_false, if_true, hpre2]
  refine congrArg some (Prod.ext ?_ rfl)
  simp [tagChars]

/-- No tag match when the head is not `[`. -/
theorem matchTagAt_no_head {c : Char} (kind : List Char) (rest : List Char)
    (hc : c ≠ '[') : matchTagAt kind (c :: rest) = none := by
  unfold matchTagAt
  have : ('[' :: '[' :: (kind ++ ['_'])).isPrefixOf (c :: rest) = false := by
    simp [List.isPrefixOf, show ('[' == c) = false by simpa using fun h => hc h.symm]
  simp [this]

/-- No tag match when the second character is not `[`. -/
theorem matchTagAt_no_second {c₂ : Char} (kind : List Char) (rest : List Char)
    (hc : c₂ ≠ '[') : matchTagAt kind ('[' :: c₂ :: rest) = none := by
  unfold matchTagAt
  have : ('[' :: '[' :: (kind ++ ['_'])).isPrefixOf ('[' :: c₂ :: rest) = false := by
    simp [List.isPrefixOf, show ('[' == c₂) = false by simpa using fun h => hc h.symm]
  simp [this]

/-- A successful match decomposes the scanned text: the matched tag is
an initial segment (and is nonempty, starting with `[`). -/
theorem matchTagAt_split {kind l tg after : List Char}
    (h : matchTagAt kind l = some (tg, after)) :
    l = tg ++ after ∧ ∃ r, tg = '[' :: r := by
  unfold matchTagAt at h
  by_cases hp : ('[' :: '[' :: (kind ++ ['_'])).isPrefixOf l = true
  · rw [hp] at h
    simp only [if_true] at h
    by_cases hde : (List.takeWhile isDigitC (l.drop (kind.length + 3))).isEmpty = true
    · rw [hde] at h
      simp at h
    · rw [Bool.not_eq_true] at hde
      rw [hde] at h
      simp only [Bool.false_eq_true, if_false] at h
      by_cases hp2 : [']', ']'].isPrefixOf
          ((l.drop (kind.length + 3)).drop
            (List.takeWhile isDigitC (l.drop (kind.length + 3))).length) = true
      · rw [hp2] at h
        simp only [if_true, Option.some.injEq, Prod.mk.injEq] at h
        obtain ⟨htag, hafter⟩ := h
        have h3 : ('[' :: '[' :: (kind ++ ['_'])).length = kind.length + 3 := by simp
        have hl : l = ('[' :: '[' :: (kind ++ ['_'])) ++ l.drop (kind.length + 3) := by
          have := eq_append_drop_of_isPrefixOf hp
          rw [h3] at this
          exact this
        have hsplit2 : l.drop (kind.length + 3) =
            List.takeWhile isDigitC (l.drop (kind.length + 3)) ++
              (l.drop (kind.length + 3)).drop
                (List.takeWhile isDigitC (l.drop (kind.length + 3))).length := by
          rw [drop_takeWhile_length]
          exact (List.takeWhile_append_dropWhile _ _).symm
        have hsplit3 : (l.drop (kind.length + 3)).drop
              (List.takeWhile isDigitC (l.drop (kind.length + 3))).length =
            [']', ']'] ++
              ((l.drop (kind.length + 3)).drop
                (List.takeWhile isDigitC (l.drop (kind.length + 3))).length).drop 2 := by
          have := eq_append_drop_of_isPrefixOf hp2
          simpa using this
        constructor
        · rw [← htag, ← hafter]
          conv_lhs => rw [hl]
          conv_lhs => rw [hsplit2]
          conv_lhs => rw [hsplit3]
          simp
        · rw [← htag]
          exact ⟨_, rfl⟩
      · rw [Bool.not_eq_true] at hp2
        rw [hp2] at h
        simp at h
  · rw [Bool.not_eq_true] at hp
    rw [hp] at h
    simp at h

/-- Fuel irrelevance for the tag scanner. -/
theorem replaceTagsAux_fuel (kind : List Char) (m : List (String × String))
    (f : String → List Char) :
    ∀ f1 l f2, l.length ≤ f1 → l.length ≤ f2 →
      replaceTagsAux kind m f f1 l = replaceTagsAux kind m f f2 l := by
  intro f1
  induction f1 with
  | zero =>
    intro l f2 h1 _
    have : l = [] := List.eq_nil_of_length_eq_zero (by omega)
    subst this
    cases f2 <;> rfl
  | succ f1 ih =>
    intro l f2 h1 h2
    cases l with
    | nil => cases f2 <;> rfl
    | cons c rest =>
      cases f2 with
      | zero => simp at h2
      | succ f2 =>
        simp only [replaceTagsAux]
        cases hm : matchTagAt kind (c :: rest) with
        | none =>
          simp only [ih rest f2 (by simpa using h1) (by simpa using h2)]
        | some pr =>
          obtain ⟨tg, after⟩ := pr
          obtain ⟨hsplit, r, hr⟩ := matchTagAt_split hm
          have hlen : after.length + 1 ≤ (c :: rest).length := by
            have := congrArg List.length hsplit
            subst hr
            simp at this ⊢
            omega
          simp only [ih after f2 (by simp at h1 hlen ⊢; omega) (by simp at h2 hlen ⊢; omega)]

/-- Scan step: no match at the head. -/
theorem replaceTags_cons_no (kind : List Char) (m : List (String × String))
    (f : String → List Char) (c : Char) (rest : List Char)
    (h : matchTagAt kind (c :: rest) = none) :
    replaceTags kind m f (c :: rest) = c :: replaceTags kind m f rest := by
  unfold replaceTags
  simp only [List.length_cons, replaceTagsAux, h]

/-- Scan step: match at the head. -/
theorem replaceTags_cons_match {kind tg after : List Char}
    (m : List (String × String)) (f : String → List Char) {c : Char} {rest : List Char}
    (h : matchTagAt kind (c :: rest) = some (tg, after)) :
    replaceTags kind m f (c :: rest) =
      (match List.lookup (String.mk tg) m with
       | some v => f v
       | none => tg) ++ replaceTags kind m f after := by
  unfold replaceTags
  simp only [List.length_cons, replaceTagsAux, h]
  congr 1
  obtain ⟨hsplit, r, hr⟩ := matchTagAt_split h
  have hlen : after.length ≤ rest.length := by
    have := congrArg List.length hsplit
    subst hr
    simp at this
    omega
  exact replaceTagsAux_fuel kind m f rest.length after after.length hlen (le_refl _)

/-- The scanner is transparent on a run of non-`[` characters. -/
theorem replaceTags_transparent (kind : List Char) (m : List (String × String))
    (f : String → List Char) {xs : List Char} (hxs : ∀ c ∈ xs, c ≠ '[')
    (rest : List Char) :
    replaceTags kind m f (xs ++ rest) = xs ++ replaceTags kind m f rest := by
  induction xs with
  | nil => simp
  | cons c cs ih =>
    have hc : c ≠ '[' := hxs c (by simp)
    rw [List.cons_append, replaceTags_cons_no kind m f c (cs ++ rest)
      (matchTagAt_no_head kind _ hc)]
    rw [ih (fun x hx => hxs x (by simp [hx]))]
    simp

theorem replaceTags_nil (kind : List Char) (m : List (String × String))
    (f : String → List Char) : replaceTags kind m f [] = [] := rfl

/-- Fuel irrelevance for the hit detector. -/
theorem tagHitAux_fuel (kind : List Char) (m : List (String × String)) :
    ∀ f1 l f2, l.length ≤ f1 → l.length ≤ f2 →
      tagHitAux kind m f1 l = tagHitAux kind m f2 l := by
  intro f1
  induction f1 with
  | zero =>
    intro l f2 h1 _
    have : l = [] := List.eq_nil_of_length_eq_zero (by omega)
    subst this
    cases f2 <;> rfl
  | succ f1 ih =>
    intro l f2 h1 h2
    cases l with
    | nil => cases f2 <;> rfl
    | cons c rest =>
      cases f2 with
      | zero => simp at h2
      | succ f2 =>
        simp only [tagHitAux]
        cases hm : matchTagAt kind (c :: rest) with
        | none =>
          simp only [ih rest f2 (by simpa using h1) (by simpa using h2)]
        | some pr =>
          obtain ⟨tg, after⟩ := pr
          obtain ⟨hsplit, r, hr⟩ := matchTagAt_split hm
          have hlen : after.length + 1 ≤ (c :: rest).length := by
            have := congrArg List.length hsplit
            subst hr
            simp at this ⊢
            omega
          simp only [ih after f2 (by simp at h1 hlen ⊢; omega) (by simp at h2 hlen ⊢; omega)]

theorem tagHit_cons_no (kind : List Char) (m : List (String × String))
    (c : Char) (rest : List Char) (h : matchTagAt kind (c :: rest) = none) :
    tagHit kind m (c :: rest) = tagHit kind m rest := by
  unfold tagHit
  simp only [List.length_cons, tagHitAux, h]

theorem tagHit_cons_match {kind tg after : List Char} (m : List (String × String))
    {c : Char} {rest : List Char} (h : matchTagAt kind (c :: rest) = some (tg, after)) :
    tagHit kind m (c :: rest) =
      ((List.lookup (String.mk tg) m).isSome || tagHit kind m after) := by
  unfold tagHit
  simp only [List.length_cons, tagHitAux, h]
  congr 1
  obtain ⟨hsplit, r, hr⟩ := matchTagAt_split h
  have hlen : after.length ≤ rest.length := by
    have := congrArg List.length hsplit
    subst hr
    simp at this
    omega
  exact tagHitAux_fuel kind m rest.length after after.length hlen (le_refl _)

/-- When the scan never hits a mapped tag, the pass is the identity. -/
theorem replaceTags_id_of_no_hit (kind : List Char) (m : List (String × String))
    (f : String → List Char) :
    ∀ n l, l.length ≤ n → tagHit kind m l = false → replaceTags kind m f l = l := by
  intro n
  induction n with
  | zero =>
    intro l h1 _
    have : l = [] := List.eq_nil_of_length_eq_zero (by omega)
    subst this
    rfl
  | succ n ih =>
    intro l h1 hhit
    cases l with
    | nil => rfl
    | cons c rest =>
      cases hm : matchTagAt kind (c :: rest) with
      | none =>
        rw [replaceTags_cons_no kind m f c rest hm]
        rw [tagHit_cons_no kind m c rest hm] at hhit
        rw [ih rest (by simpa using h1) hhit]
      | some pr =>
        obtain ⟨tg, after⟩ := pr
        rw [replaceTags_cons_match m f hm]
        rw [tagHit_cons_match m hm] at hhit
        simp only [Bool.or_eq_false_iff] at hhit
        obtain ⟨hlk, hhit2⟩ := hhit
        have hlk2 : List.lookup (String.mk tg) m = none := by
          cases h : List.lookup (String.mk tg) m
          · rfl
          · simp [h] at hlk
        obtain ⟨hsplit, r, hr⟩ := matchTagAt_split hm
        have hlen : after.length ≤ n := by
          have := congrArg List.length hsplit
          subst hr
          simp at this h1
          omega
        rw [ih after hlen hhit2, hlk2, ← hsplit]

/-! ## Scanner lemmas for the word-bounded identifier pass -/

/-- When the `\b…\b` scan never fires, the replacement is the
identity. -/
theorem rwaAux_id_of_no_occur (n0 : Char) (ntl repl : List Char) :
    ∀ fuel prev l, l.length ≤ fuel → woAux n0 ntl fuel prev l = false →
      rwaAux n0 ntl repl fuel prev l = l := by
  intro fuel
  induction fuel with
  | zero =>
    intro prev l h1 _
    have : l = [] := List.eq_nil_of_length_eq_zero (by omega)
    subst this
    rfl
  | succ fuel ih =>
    intro prev l h1 hocc
    cases l with
    | nil => rfl
    | cons c rest =>
      simp only [woAux] at hocc
      simp only [rwaAux]
      cases hcond : wbHit n0 ntl prev (c :: rest) with
      | true =>
        rw [hcond] at hocc
        simp at hocc
      | false =>
        rw [hcond] at hocc
        simp only [Bool.false_eq_true, if_false] at hocc ⊢
        rw [ih (some c) rest (by simpa using h1) hocc]

theorem replaceWordAll_id_of_no_occur (needle repl hay : List Char)
    (h : wordOccurs needle hay = false) : replaceWordAll needle repl hay = hay := by
  cases needle with
  | nil => rfl
  | cons n0 ntl =>
    exact rwaAux_id_of_no_occur n0 ntl repl hay.length none hay (le_refl _)
      (by simpa [wordOccurs] using h)

/-! ## Lemmas for the identifier pass -/

theorem replaceWordAll_nil_hay (needle repl : List Char) :
    replaceWordAll needle repl [] = [] := by
  cases needle with
  | nil => rfl
  | cons n0 ntl => rfl

theorem identPass_cons (m : List (String × String)) (kv : String × String)
    (t : List Char) :
    identPass (kv :: m) t =
      identPass m
        (if jsStartsWith kv.1 "STR" then t
         else if jsStartsWith kv.1 "[[" then t
         else replaceWordAll kv.1.data kv.2.data t) := by
  by_cases h1 : jsStartsWith kv.1 "STR" = true
  · simp [identPass, h1]
  · by_cases h2 : jsStartsWith kv.1 "[[" = true
    · simp [identPass, h1, h2]
    · simp [identPass, h1, h2]

theorem identPass_nil (m : List (String × String)) : identPass m [] = [] := by
  induction m with
  | nil => rfl
  | cons kv rest ih =>
    rw [identPass_cons]
    have hbody : (if jsStartsWith kv.1 "STR" then ([] : List Char)
        else if jsStartsWith kv.1 "[[" then [] else replaceWordAll kv.1.data kv.2.data []) = [] := by
      rw [replaceWordAll_nil_hay]
      simp
    rw [hbody]
    exact ih

/-- A key cannot start with both `STR` and `[[`. -/
theorem not_startsWith_STR_and_brackets {k : String}
    (h1 : jsStartsWith k "STR" = true) (h2 : jsStartsWith k "[[" = true) : False := by
  unfold jsStartsWith at h1 h2
  cases hk : k.data with
  | nil => rw [hk] at h1; simp [List.isPrefixOf] at h1
  | cons c cs =>
    rw [hk] at h1 h2
    have e1 : 'S' = c := by
      simp only [show ("STR".data) = ['S', 'T', 'R'] from rfl, List.isPrefixOf,
        Bool.and_eq_true, beq_iff_eq] at h1
      exact h1.1
    have e2 : '[' = c := by
      simp only [show ("[[".data) = ['[', '['] from rfl, List.isPrefixOf,
        Bool.and_eq_true, beq_iff_eq] at h2
      exact h2.1
    rw [← e1] at e2
    exact absurd e2 (by decide)

/-- The identifier pass is the identity when every entry is skipped or
never occurs word-bounded in the text. -/
theorem identPass_id (m : List (String × String)) (t : List Char)
    (h : ∀ kv ∈ m, jsStartsWith kv.1 "STR" = true ∨ jsStartsWith kv.1 "[[" = true ∨
      wordOccurs kv.1.data t = false) :
    identPass m t = t := by
  induction m with
  | nil => rfl
  | cons kv rest ih =>
    rw [identPass_cons]
    have hbody : (if jsStartsWith kv.1 "STR" then t
        else if jsStartsWith kv.1 "[[" then t
        else replaceWordAll kv.1.data kv.2.data t) = t := by
      by_cases h1 : jsStartsWith kv.1 "STR" = true
      · simp [h1]
      · by_cases h2 : jsStartsWith kv.1 "[[" = true
        · simp [h1, h2]
        · rcases h kv (by simp) with hc | hc | hc
          · exact absurd hc h1
          · exact absurd hc h2
          · simp only [h1, h2, Bool.false_eq_true, if_false]
            exact replaceWordAll_id_of_no_occur _ _ _ hc
    rw [hbody]
    exact ih (fun kv hkv => h kv (by simp [hkv]))

/-! ## Remaining scanner helper lemmas -/

theorem isPrefixOf_length {p l : List Char} (h : p.isPrefixOf l = true) :
    p.length ≤ l.length := by
  induction p generalizing l with
  | nil => simp
  | cons c cs ih =>
    cases l with
    | nil => simp [List.isPrefixOf] at h
    | cons x xs =>
      simp only [List.isPrefixOf, Bool.and_eq_true] at h
      have := ih h.2
      simp
      omega

theorem matchTagAt_short {kind l : List Char} (h : l.length < kind.length + 3) :
    matchTagAt kind l = none := by
  unfold matchTagAt
  have hp : ('[' :: '[' :: (kind ++ ['_'])).isPrefixOf l = false := by
    cases hc : ('[' :: '[' :: (kind ++ ['_'])).isPrefixOf l
    · rfl
    · have := isPrefixOf_length hc
      simp at this
      omega
  simp [hp]

/-- No tag match when the tag opener is not a prefix. -/
theorem matchTagAt_none_of_not_pre {kind l : List Char}
    (h : ('[' :: '[' :: (kind ++ ['_'])).isPrefixOf l = false) :
    matchTagAt kind l = none := by
  unfold matchTagAt
  rw [h]
  simp

/-- No tag match on `'[' :: '[' :: c₃ :: …` when `c₃` is not the
kind's first character. -/
theorem matchTagAt_no_third {k0 c₃ : Char} (kr rest : List Char) (hc : c₃ ≠ k0) :
    matchTagAt (k0 :: kr) ('[' :: '[' :: c₃ :: rest) = none := by
  apply matchTagAt_none_of_not_pre
  simp [List.isPrefixOf, show (k0 == c₃) = false by simpa using fun h => hc h.symm]

/-- `replaceTags_cons_match` for a text given in append form. -/
theorem replaceTags_match {kind tg after : List Char}
    (m : List (String × String)) (f : String → List Char) {l : List Char}
    (h : matchTagAt kind l = some (tg, after)) :
    replaceTags kind m f l =
      (match List.lookup (String.mk tg) m with
       | some v => f v
       | none => tg) ++ replaceTags kind m f after := by
  cases l with
  | nil =>
    rw [matchTagAt_short (by simp)] at h
    exact absurd h (by simp)
  | cons c rest => exact replaceTags_cons_match m f h

theorem stringMk_data (s : String) : String.mk s.data = s := by
  cases s
  rfl

/-! ## C5 — inner-content substitution of the string-tag pass -/

/-- C5: whatever single delimiter characters surround a `[[STR_d]]`
tag, the string pass of `_restoreByRegex` replaces exactly the tag by
the stored original minus its first and last character (its quotes),
keeping the surrounding delimiters. -/
theorem strTag_restores_inner_content :
    ∀ (m : List (String × String)) (d : List Char) (q q' : Char) (val : String),
      d ≠ [] → (∀ c ∈ d, isDigitC c = true) →
      List.lookup (String.mk (tagChars strKind d)) m = some val →
      replaceTags strKind m strContent (q :: (tagChars strKind d ++ [q'])) =
        q :: ((jsSubstring2 val 1 (val.data.length - 1)).data ++ [q']) := by
  intro m d q q' val hd hdig hlk
  have hq : matchTagAt strKind (q :: (tagChars strKind d ++ [q'])) = none := by
    by_cases hqeq : q = '['
    · subst hqeq
      have hshape : tagChars strKind d ++ [q'] =
          '[' :: '[' :: 'S' :: ('T' :: 'R' :: '_' :: d ++ [']', ']'] ++ [q']) := by
        simp [tagChars, strKind]
      rw [hshape]
      exact matchTagAt_no_third _ _ (by decide)
    · exact matchTagAt_no_head strKind _ hqeq
  rw [replaceTags_cons_no strKind m strContent q _ hq]
  rw [replaceTags_match m strContent (matchTagAt_tag strKind d [q'] hd hdig)]
  rw [hlk]
  have hq' : replaceTags strKind m strContent [q'] = [q'] := by
    rw [replaceTags_cons_no strKind m strContent q' []
      (matchTagAt_short (by simp [strKind]))]
    rfl
  rw [hq']
  rfl

/-- C5 witness: `'[[STR_1]]'` with backward map
`{[[STR_1]] : "hello" (double-quoted)}` restores to `'hello'`. -/
theorem strTag_restores_inner_content_witness :
    List.lookup (String.mk (tagChars strKind ['1'])) [("[[STR_1]]", "\"hello\"")] =
      some "\"hello\"" ∧
    replaceTags strKind [("[[STR_1]]", "\"hello\"")] strContent
        ('\'' :: (tagChars strKind ['1'] ++ ['\''])) =
      '\'' :: ((jsSubstring2 "\"hello\"" 1 ("\"hello\"".data.length - 1)).data ++ ['\'']) := by
  refine ⟨by decide, ?_⟩
  exact strTag_restores_inner_content [("[[STR_1]]", "\"hello\"")] ['1'] '\'' '\'' "\"hello\""
    (by decide) (by decide) (by decide)

/-! ## C10 — `STR`-prefixed mapping keys are inert in restoration -/

theorem lookup_filter_keep (p : String × String → Bool) (m : List (String × String))
    (k : String) (hk : ∀ v, p (k, v) = true) :
    List.lookup k (m.filter p) = List.lookup k m := by
  induction m with
  | nil => simp
  | cons kv rest ih =>
    by_cases hb : k = kv.1
    · have hpkv : p kv = true := by
        have := hk kv.2
        rw [hb] at this
        simpa using this
      simp [List.filter_cons, hpkv, List.lookup, hb]
    · have hbeq : (k == kv.1) = false := by simpa using hb
      by_cases hpkv : p kv = true
      · simp [List.filter_cons, hpkv, List.lookup, hbeq, ih]
      · simp only [List.filter_cons, Bool.not_eq_true] at hpkv ⊢
        rw [hpkv]
        simp only [Bool.false_eq_true, if_false]
        rw [ih]
        simp [List.lookup, hbeq]

/-- The keep-everything-not-starting-`STR` filter. -/
def dropSTR (m : List (String × String)) : List (String × String) :=
  m.filter fun kv => !(jsStartsWith kv.1 "STR")

theorem lookup_dropSTR_of_bracket {m : List (String × String)} {tg : List Char}
    {r : List Char} (hr : tg = '[' :: r) :
    List.lookup (String.mk tg) (dropSTR m) = List.lookup (String.mk tg) m := by
  apply lookup_filter_keep
  intro v
  subst hr
  simp [jsStartsWith, show ("STR".data) = ['S', 'T', 'R'] from rfl, List.isPrefixOf]

theorem replaceTags_dropSTR (kind : List Char) (m : List (String × String))
    (f : String → List Char) :
    ∀ n t, t.length ≤ n → replaceTags kind m f t = replaceTags kind (dropSTR m) f t := by
  intro n
  induction n with
  | zero =>
    intro t h1
    have : t = [] := List.eq_nil_of_length_eq_zero (by omega)
    subst this
    rfl
  | succ n ih =>
    intro t h1
    cases t with
    | nil => rfl
    | cons c rest =>
      cases hm : matchTagAt kind (c :: rest) with
      | none =>
        rw [replaceTags_cons_no kind m f c rest hm,
          replaceTags_cons_no kind (dropSTR m) f c rest hm]
        rw [ih rest (by simpa using h1)]
      | some pr =>
        obtain ⟨tg, after⟩ := pr
        rw [replaceTags_cons_match m f hm, replaceTags_cons_match (dropSTR m) f hm]
        obtain ⟨hsplit, r, hr⟩ := matchTagAt_split hm
        rw [lookup_dropSTR_of_bracket hr]
        have hlen : after.length ≤ n := by
          have := congrArg List.length hsplit
          subst hr
          simp at this h1
          omega
        rw [ih after hlen]

theorem identPass_dropSTR (m : List (String × String)) :
    ∀ t, identPass m t = identPass (dropSTR m) t := by
  induction m with
  | nil => intro t; rfl
  | cons kv rest ih =>
    intro t
    by_cases hS : jsStartsWith kv.1 "STR" = true
    · rw [identPass_cons, if_pos hS]
      have : dropSTR (kv :: rest) = dropSTR rest := by
        simp [dropSTR, List.filter_cons, hS]
      rw [this]
      exact ih t
    · have : dropSTR (kv :: rest) = kv :: dropSTR rest := by
        simp only [dropSTR, List.filter_cons]
        simp [show (!(jsStartsWith kv.1 "STR")) = true by simpa using hS]
      rw [this, identPass_cons, identPass_cons, if_neg (by simpa using hS)]
      by_cases hB : jsStartsWith kv.1 "[[" = true
      · rw [if_pos hB]
        exact ih t
      · rw [if_neg (by simpa using hB)]
        exact ih _

/-- C10: every mapping key that starts with `STR` is inert throughout
`_restoreByRegex` — restoration with the mapping equals restoration
with those keys removed (the tag passes cannot match them and the
identifier pass skips them), so a masked identifier `STR_n` stays
masked even though the mapping holds `STR_n → original`; and the
classifier does mint such masked names (`userName` is tagged `STR`). -/
theorem strMasked_keys_inert_in_restoration :
    ∀ (t : List Char) (m : List (String × String)),
      restoreChars t m = restoreChars t (dropSTR m) ∧
      classifyName "userName" "def.var" = "STR" := by
  intro t m
  refine ⟨?_, by decide⟩
  unfold restoreChars
  rw [← replaceTags_dropSTR strKind m strContent t.length t (le_refl _)]
  rw [← replaceTags_dropSTR cmtKind m cmtContent
    (replaceTags strKind m strContent t).length (replaceTags strKind m strContent t) (le_refl _)]
  rw [← identPass_dropSTR]

/-! ## C6 — comment masking and tag restoration -/

theorem isDigitC_ne_bracket {c : Char} (h : isDigitC c = true) : c ≠ '[' := by
  intro hc
  subst hc
  simp [isDigitC] at h

/-- Restoring `pre ++ [[CMT_d]] ++ post` with a mapping that stores
`content` for the tag yields `pre ++ content ++ post`: the string pass
cannot match, the comment pass substitutes the stored content verbatim,
and the identifier pass does not fire. -/
theorem restore_delim_tag_delim (pre post : List Char) (d : List Char)
    (m : List (String × String)) (content : String)
    (hpre : ∀ c ∈ pre, c ≠ '[') (hpost : ∀ c ∈ post, c ≠ '[')
    (hd : d ≠ []) (hdig : ∀ c ∈ d, isDigitC c = true)
    (hlk : List.lookup (String.mk (tagChars cmtKind d)) m = some content)
    (hident : ∀ kv ∈ m, jsStartsWith kv.1 "STR" = true ∨ jsStartsWith kv.1 "[[" = true ∨
      wordOccurs kv.1.data (pre ++ content.data ++ post) = false) :
    restoreChars (pre ++ (tagChars cmtKind d ++ post)) m = pre ++ content.data ++ post := by
  have hshape : tagChars cmtKind d ++ post =
      '[' :: '[' :: 'C' :: ('M' :: 'T' :: '_' :: (d ++ ']' :: ']' :: post)) := by
    simp [tagChars, cmtKind]
  have hxs : ∀ c ∈ 'C' :: 'M' :: 'T' :: '_' :: (d ++ ']' :: ']' :: post), c ≠ '[' := by
    intro c hc
    simp only [List.mem_cons, List.mem_append] at hc
    rcases hc with rfl | rfl | rfl | rfl | hc | rfl | rfl | hc
    · decide
    · decide
    · decide
    · decide
    · exact isDigitC_ne_bracket (hdig c hc)
    · decide
    · decide
    · exact hpost c hc
  have hruns : replaceTags strKind m strContent
      ('C' :: 'M' :: 'T' :: '_' :: (d ++ ']' :: ']' :: post)) =
      'C' :: 'M' :: 'T' :: '_' :: (d ++ ']' :: ']' :: post) := by
    have := replaceTags_transparent strKind m strContent hxs []
    simpa [replaceTags_nil] using this
  have hstr : replaceTags strKind m strContent (pre ++ (tagChars cmtKind d ++ post)) =
      pre ++ (tagChars cmtKind d ++ post) := by
    rw [replaceTags_transparent strKind m strContent hpre]
    rw [hshape]
    rw [replaceTags_cons_no strKind m strContent '[' _
      (matchTagAt_no_third _ _ (by decide))]
    rw [replaceTags_cons_no strKind m strContent '[' _
      (matchTagAt_no_second _ _ (by decide))]
    rw [hruns]
  have hpostid : replaceTags cmtKind m cmtContent post = post := by
    have := replaceTags_transparent cmtKind m cmtContent hpost []
    simpa [replaceTags_nil] using this
  have hcmt : replaceTags cmtKind m cmtContent (pre ++ (tagChars cmtKind d ++ post)) =
      pre ++ content.data ++ post := by
    rw [replaceTags_transparent cmtKind m cmtContent hpre]
    rw [replaceTags_match m cmtContent (matchTagAt_tag cmtKind d post hd hdig)]
    rw [hlk, hpostid]
    simp [cmtContent]
  unfold restoreChars
  rw [hstr, hcmt]
  exact identPass_id m _ (by simpa using hident)

/-- `substring` extracts the middle of a three-part split. -/
theorem jsSubstring2_extract {s : String} {front mid back : List Char}
    (hs : s.data = front ++ (mid ++ back)) :
    jsSubstring2 s front.length (s.data.length - back.length) = String.mk mid := by
  have hL : s.data.length = front.length + (mid.length + back.length) := by
    rw [hs]; simp
  simp only [jsSubstring2]
  have h1 : min front.length s.data.length = front.length := by omega
  have h2 : min (s.data.length - back.length) s.data.length =
      s.data.length - back.length := by omega
  rw [h1, h2]
  have h3 : min front.length (s.data.length - back.length) = front.length := by omega
  have h4 : max front.length (s.data.length - back.length) =
      s.data.length - back.length := by omega
  rw [h3, h4]
  have h5 : s.data.length - back.length - front.length = mid.length := by omega
  rw [h5, hs, List.drop_left]
  rw [show mid.length = mid.length from rfl, List.take_left]

/-- C6 as amended: a comment is replaced by `[[CMT_n]]` with its
original delimiters re-emitted around the tag, and tag-mode
restoration of the masked comment with the produced mapping reproduces
the comment exactly — for a line comment, and for block and doc-block
comments whose opening and closing delimiters do not overlap — as long
as no non-skipped mapping key occurs word-bounded in the comment. -/
theorem comment_mask_restore_roundTrip :
    ∀ (text content : String) (d : List Char) (m : List (String × String)),
      d ≠ [] → (∀ c ∈ d, isDigitC c = true) →
      List.lookup (String.mk (tagChars cmtKind d)) m = some content →
      (∀ kv ∈ m, jsStartsWith kv.1 "STR" = true ∨ jsStartsWith kv.1 "[[" = true ∨
        wordOccurs kv.1.data text.data = false) →
      ((jsStartsWith text "//" = true → content = jsSubstring1 text 2 →
        cmtMask text (String.mk (tagChars cmtKind d)) =
          ("//" ++ String.mk (tagChars cmtKind d), jsSubstring1 text 2) ∧
        restoreByRegex ("//" ++ String.mk (tagChars cmtKind d)) m = text) ∧
       (∀ mid : String, text = "/**" ++ mid ++ "*/" → content = mid →
        cmtMask text (String.mk (tagChars cmtKind d)) =
          ("/**" ++ String.mk (tagChars cmtKind d) ++ "*/", mid) ∧
        restoreByRegex ("/**" ++ String.mk (tagChars cmtKind d) ++ "*/") m = text) ∧
       (∀ mid : String, text = "/*" ++ mid ++ "*/" → jsStartsWith text "/**" = false →
        content = mid →
        cmtMask text (String.mk (tagChars cmtKind d)) =
          ("/*" ++ String.mk (tagChars cmtKind d) ++ "*/", mid) ∧
        restoreByRegex ("/*" ++ String.mk (tagChars cmtKind d) ++ "*/") m = text)) := by
  intro text content d m hd hdig hlk hident
  refine ⟨?_, ?_, ?_⟩
  · -- line comment
    intro hstart hcontent
    have hsplit : text.data = ['/', '/'] ++ text.data.drop 2 := by
      have := eq_append_drop_of_isPrefixOf (p := "//".data) (l := text.data) hstart
      simpa using this
    constructor
    · unfold cmtMask
      rw [if_pos hstart]
    · have hcd : content.data = text.data.drop 2 := by
        rw [hcontent]; rfl
      have hr := restore_delim_tag_delim ['/', '/'] [] d m content
        (by intro c hc; simp only [List.mem_cons, List.not_mem_nil, or_false] at hc
            rcases hc with rfl | rfl <;> decide)
        (by intro c hc; simp at hc)
        hd hdig hlk ?_
      · apply String.ext
        unfold restoreByRegex
        rw [show ("//" ++ String.mk (tagChars cmtKind d)).data =
            ['/', '/'] ++ (tagChars cmtKind d ++ []) by simp]
        rw [hr, hcd]
        simp
        exact hsplit.symm
      · intro kv hkv
        rcases hident kv hkv with h | h | h
        · exact Or.inl h
        · exact Or.inr (Or.inl h)
        · refine Or.inr (Or.inr ?_)
          rw [show ['/', '/'] ++ content.data ++ ([] : List Char) =
              text.data by rw [hcd]; simpa using hsplit.symm]
          exact h
  · -- doc-block comment
    intro mid hmid hcontent
    have hdata : text.data = ['/', '*', '*'] ++ (mid.data ++ ['*', '/']) := by
      rw [hmid]; simp
    have hstart2 : jsStartsWith text "//" = false := by
      unfold jsStartsWith
      rw [hdata]
      simp [List.isPrefixOf]
    have hstart3 : jsStartsWith text "/**" = true := by
      unfold jsStartsWith
      rw [hdata]
      simp [List.isPrefixOf]
    have hsub : jsSubstring2 text 3 (text.data.length - 2) = mid := by
      have := jsSubstring2_extract hdata
      simpa [stringMk_data] using this
    constructor
    · unfold cmtMask
      rw [if_neg (by simp [hstart2]), if_pos hstart3, hsub]
    · have hcd : content.data = mid.data := by rw [hcontent]
      have hr := restore_delim_tag_delim ['/', '*', '*'] ['*', '/'] d m content
        (by intro c hc; simp only [List.mem_cons, List.not_mem_nil, or_false] at hc
            rcases hc with rfl | rfl | rfl <;> decide)
        (by intro c hc; simp only [List.mem_cons, List.not_mem_nil, or_false] at hc
            rcases hc with rfl | rfl <;> decide)
        hd hdig hlk ?_
      · apply String.ext
        unfold restoreByRegex
        rw [show ("/**" ++ String.mk (tagChars cmtKind d) ++ "*/").data =
            ['/', '*', '*'] ++ (tagChars cmtKind d ++ ['*', '/']) by simp]
        rw [hr, hcd, hdata]
        simp
      · intro kv hkv
        rcases hident kv hkv with h | h | h
        · exact Or.inl h
        · exact Or.inr (Or.inl h)
        · refine Or.inr (Or.inr ?_)
          rw [show ['/', '*', '*'] ++ content.data ++ ['*', '/'] = text.data by
            rw [hcd, hdata]; simp]
          exact h
  · -- plain block comment
    intro mid hmid hnotdoc hcontent
    have hdata : text.data = ['/', '*'] ++ (mid.data ++ ['*', '/']) := by
      rw [hmid]; simp
    have hstart2 : jsStartsWith text "//" = false := by
      unfold jsStartsWith
      rw [hdata]
      simp [List.isPrefixOf]
    have hstart4 : jsStartsWith text "/*" = true := by
      unfold jsStartsWith
      rw [hdata]
      simp [List.isPrefixOf]
    have hsub : jsSubstring2 text 2 (text.data.length - 2) = mid := by
      have := jsSubstring2_extract hdata
      simpa [stringMk_data] using this
    constructor
    · unfold cmtMask
      rw [if_neg (by simp [hstart2]), if_neg (by simp [hnotdoc]), if_pos hstart4, hsub]
    · have hcd : content.data = mid.data := by rw [hcontent]
      have hr := restore_delim_tag_delim ['/', '*'] ['*', '/'] d m content
        (by intro c hc; simp only [List.mem_cons, List.not_mem_nil, or_false] at hc
            rcases hc with rfl | rfl <;> decide)
        (by intro c hc; simp only [List.mem_cons, List.not_mem_nil, or_false] at hc
            rcases hc with rfl | rfl <;> decide)
        hd hdig hlk ?_
      · apply String.ext
        unfold restoreByRegex
        rw [show ("/*" ++ String.mk (tagChars cmtKind d) ++ "*/").data =
            ['/', '*'] ++ (tagChars cmtKind d ++ ['*', '/']) by simp]
        rw [hr, hcd, hdata]
        simp
      · intro kv hkv
        rcases hident kv hkv with h | h | h
        · exact Or.inl h
        · exact Or.inr (Or.inl h)
        · refine Or.inr (Or.inr ?_)
          rw [show ['/', '*'] ++ content.data ++ ['*', '/'] = text.data by
            rw [hcd, hdata]; simp]
          exact h

/-- C6 witness: `// secret note` masked as `//[[CMT_1]]` restores to
`// secret note`. -/
theorem comment_mask_restore_roundTrip_witness :
    cmtMask "// secret note" (String.mk (tagChars cmtKind ['1'])) =
      ("//" ++ String.mk (tagChars cmtKind ['1']), jsSubstring1 "// secret note" 2) ∧
    restoreByRegex ("//" ++ String.mk (tagChars cmtKind ['1']))
      [("[[CMT_1]]", " secret note")] = "// secret note" :=
  (comment_mask_restore_roundTrip "// secret note" " secret note" ['1']
    [("[[CMT_1]]", " secret note")] (by decide) (by decide) (by decide) (by decide)).1
    (by decide) (by decide)

/-! ## C2 — bijection of the mapping tables (identifier-only masking) -/

/-- Every tag the classifier can mint. -/
def prefixPool : List String :=
  ["VAR", "ACTION", "CLASS", "TYPE", "LIST_VAR", "LIST_ACTION", "LIST_CLASS",
   "LIST_TYPE", "BOOL", "STR", "NUM", "ID", "HANDLER", "HOOK", "PROPS"]

theorem baseTag_mem (typeTag : String) :
    baseTag typeTag = "ACTION" ∨ baseTag typeTag = "CLASS" ∨
    baseTag typeTag = "TYPE" ∨ baseTag typeTag = "VAR" := by
  unfold baseTag
  by_cases h1 : jsIncludes typeTag "func" = true
  · simp [h1]
  · by_cases h2 : jsIncludes typeTag "class" = true
    · simp [h1, h2]
    · by_cases h3 : jsIncludes typeTag "type" = true
      · simp [h1, h2, h3]
      · simp [h1, h2, h3]

theorem classifyName_mem (name typeTag : String) :
    classifyName name typeTag ∈ prefixPool := by
  have hb := baseTag_mem typeTag
  by_cases r1 : listLike name = true
  · simp only [classifyName, r1, if_true]
    rcases hb with h | h | h | h <;> rw [h] <;> decide
  · have r1' : listLike name = false := by simpa using r1
    by_cases r2 : boolStyle name = true
    · simp [classifyName, r1', r2, prefixPool]
    · have r2' : boolStyle name = false := by simpa using r2
      by_cases r3 : strLike name = true
      · simp [classifyName, r1', r2', r3, prefixPool]
      · have r3' : strLike name = false := by simpa using r3
        by_cases r4 : numLike name = true
        · simp [classifyName, r1', r2', r3', r4, prefixPool]
        · have r4' : numLike name = false := by simpa using r4
          by_cases r5 : idLike name = true
          · simp [classifyName, r1', r2', r3', r4', r5, prefixPool]
          · have r5' : idLike name = false := by simpa using r5
            by_cases r6 : handlerStyle name = true
            · simp [classifyName, r1', r2', r3', r4', r5', r6, prefixPool]
            · have r6' : handlerStyle name = false := by simpa using r6
              by_cases r7 : hookStyle name = true
              · simp [classifyName, r1', r2', r3', r4', r5', r6', r7, prefixPool]
              · have r7' : hookStyle name = false := by simpa using r7
                by_cases r8 : propsStyle name = true
                · simp [classifyName, r1', r2', r3', r4', r5', r6', r7', r8, prefixPool]
                · have r8' : propsStyle name = false := by simpa using r8
                  simp only [classifyName, r1', r2', r3', r4', r5', r6', r7', r8',
                    Bool.false_eq_true, if_false]
                  rcases hb with h | h | h | h <;> rw [h] <;> decide

set_option maxHeartbeats 1600000 in
theorem pool_toLower_inj :
    ∀ p ∈ prefixPool, ∀ q ∈ prefixPool, jsToLower p = jsToLower q → p = q := by
  decide

theorem pool_no_digit :
    ∀ p ∈ prefixPool, ∀ c ∈ p.data, isDigitC c = false := by
  decide

theorem mkMasked_data (p : String) (c : Nat) :
    (mkMasked p c).data = p.data ++ '_' :: toDec c := by
  simp [mkMasked, String.data_append]

theorem mkMasked_inj {p q : String} {c1 c2 : Nat}
    (hp : ∀ ch ∈ p.data, isDigitC ch = false)
    (hq : ∀ ch ∈ q.data, isDigitC ch = false)
    (h : mkMasked p c1 = mkMasked q c2) : p = q ∧ c1 = c2 := by
  have hd : p.data ++ '_' :: toDec c1 = q.data ++ '_' :: toDec c2 := by
    have := congrArg String.data h
    rw [mkMasked_data, mkMasked_data] at this
    exact this
  obtain ⟨d1, ds1, h1⟩ := List.exists_cons_of_ne_nil (toDec_ne_nil c1)
  obtain ⟨d2, ds2, h2⟩ := List.exists_cons_of_ne_nil (toDec_ne_nil c2)
  have htw : p.data ++ ['_'] = q.data ++ ['_'] := by
    have e1 : List.takeWhile (fun ch => !(isDigitC ch)) (p.data ++ '_' :: toDec c1) =
        p.data ++ ['_'] := by
      rw [show p.data ++ '_' :: toDec c1 = (p.data ++ ['_']) ++ d1 :: ds1 by
        rw [h1]; simp]
      refine takeWhile_all_append ?_ d1 ds1 ?_
      · intro x hx
        rcases List.mem_append.mp hx with hx | hx
        · simp [hp x hx]
        · rcases List.mem_singleton.mp hx with rfl
          decide
      · have : isDigitC d1 = true := toDec_digits c1 d1 (by rw [h1]; simp)
        simp [this]
    have e2 : List.takeWhile (fun ch => !(isDigitC ch)) (q.data ++ '_' :: toDec c2) =
        q.data ++ ['_'] := by
      rw [show q.data ++ '_' :: toDec c2 = (q.data ++ ['_']) ++ d2 :: ds2 by
        rw [h2]; simp]
      refine takeWhile_all_append ?_ d2 ds2 ?_
      · intro x hx
        rcases List.mem_append.mp hx with hx | hx
        · simp [hq x hx]
        · rcases List.mem_singleton.mp hx with rfl
          decide
      · have : isDigitC d2 = true := toDec_digits c2 d2 (by rw [h2]; simp)
        simp [this]
    rw [← e1, ← e2, hd]
  obtain ⟨hpq, _⟩ := append_singleton_inj htw
  have hpq' : p = q := String.ext hpq
  subst hpq'
  refine ⟨rfl, ?_⟩
  have h3 := List.append_cancel_left hd
  have h4 := List.cons.inj h3
  exact toDec_inj h4.2

/-- The counter value the engine would read for key `k`. -/
def counterOf (st : SanState) (k : String) : Nat :=
  (List.lookup k st.typeCounters).getD 0

/-- The bijection invariant of the mapping tables together with the
well-formedness of every minted masked name. -/
def TableInv (st : SanState) : Prop :=
  (∀ o msk, List.lookup o st.mapForward = some msk ↔
    List.lookup msk st.mapBackward = some o) ∧
  (∀ msk o, List.lookup msk st.mapBackward = some o →
    ∃ p c, p ∈ prefixPool ∧ 1 ≤ c ∧ c ≤ counterOf st (jsToLower p) ∧ msk = mkMasked p c)

theorem TableInv_empty : TableInv emptySt := by
  constructor
  · intro o msk
    simp [emptySt]
  · intro msk o h
    simp [emptySt] at h

theorem getReplacement_state_of_found (st : SanState) (n t m : String)
    (hf : List.lookup n st.mapForward = some m) :
    (getReplacement st n t).2 = st := by
  unfold getReplacement
  rw [hf]

theorem getReplacement_state_of_new (st : SanState) (n t : String)
    (hf : List.lookup n st.mapForward = none) :
    (getReplacement st n t).2 =
      { mapForward := assocSet st.mapForward n
          (mkMasked (classifyName n t) (counterOf st (jsToLower (classifyName n t)) + 1))
        mapBackward := assocSet st.mapBackward
          (mkMasked (classifyName n t) (counterOf st (jsToLower (classifyName n t)) + 1)) n
        typeCounters := assocSet st.typeCounters (jsToLower (classifyName n t))
          (counterOf st (jsToLower (classifyName n t)) + 1) } := by
  unfold getReplacement
  rw [hf]
  rfl

theorem getReplacement_inv (st : SanState) (n t : String) (h : TableInv st) :
    TableInv (getReplacement st n t).2 := by
  obtain ⟨hmi, hwf⟩ := h
  cases hf : List.lookup n st.mapForward with
  | some m =>
    rw [getReplacement_state_of_found st n t m hf]
    exact ⟨hmi, hwf⟩
  | none =>
    rw [getReplacement_state_of_new st n t hf]
    have hpool : classifyName n t ∈ prefixPool := classifyName_mem n t
    have hfresh : List.lookup
        (mkMasked (classifyName n t) (counterOf st (jsToLower (classifyName n t)) + 1))
        st.mapBackward = none := by
      cases hl : List.lookup
          (mkMasked (classifyName n t) (counterOf st (jsToLower (classifyName n t)) + 1))
          st.mapBackward with
      | none => rfl
      | some o =>
        exfalso
        obtain ⟨q, c', hq, hc1, hc2, heq⟩ := hwf _ _ hl
        obtain ⟨hqp, hcc⟩ := mkMasked_inj
          (pool_no_digit q hq) (pool_no_digit _ hpool) heq.symm
        rw [hqp] at hc2
        omega
    constructor
    · intro o msk
      show List.lookup o (assocSet st.mapForward n
          (mkMasked (classifyName n t) (counterOf st (jsToLower (classifyName n t)) + 1)))
          = some msk ↔
        List.lookup msk (assocSet st.mapBackward
          (mkMasked (classifyName n t) (counterOf st (jsToLower (classifyName n t)) + 1)) n)
          = some o
      rw [lookup_assocSet, lookup_assocSet]
      by_cases ho : o = n <;> by_cases hm : msk =
          mkMasked (classifyName n t) (counterOf st (jsToLower (classifyName n t)) + 1)
      · rw [if_pos ho, if_pos hm]
        constructor
        · intro _
          exact congrArg some ho.symm
        · intro _
          exact congrArg some hm.symm
      · rw [if_pos ho, if_neg hm]
        constructor
        · intro hx
          exact absurd (Option.some.inj hx).symm hm
        · intro hx
          have h2 := (hmi o msk).mpr hx
          rw [ho, hf] at h2
          exact absurd h2 (by simp)
      · rw [if_neg ho, if_pos hm]
        constructor
        · intro hx
          have h2 := (hmi o msk).mp hx
          rw [hm, hfresh] at h2
          exact absurd h2 (by simp)
        · intro hx
          exact absurd (Option.some.inj hx).symm ho
      · rw [if_neg ho, if_neg hm]
        exact hmi o msk
    · intro msk o hx
      rw [show List.lookup msk
          ({ mapForward := assocSet st.mapForward n
              (mkMasked (classifyName n t) (counterOf st (jsToLower (classifyName n t)) + 1))
             mapBackward := assocSet st.mapBackward
              (mkMasked (classifyName n t) (counterOf st (jsToLower (classifyName n t)) + 1)) n
             typeCounters := assocSet st.typeCounters (jsToLower (classifyName n t))
              (counterOf st (jsToLower (classifyName n t)) + 1) } : SanState).mapBackward =
          List.lookup msk (assocSet st.mapBackward
            (mkMasked (classifyName n t) (counterOf st (jsToLower (classifyName n t)) + 1)) n)
          from rfl] at hx
      rw [lookup_assocSet] at hx
      have hcnew : ∀ k, counterOf
          { mapForward := assocSet st.mapForward n
              (mkMasked (classifyName n t) (counterOf st (jsToLower (classifyName n t)) + 1))
            mapBackward := assocSet st.mapBackward
              (mkMasked (classifyName n t) (counterOf st (jsToLower (classifyName n t)) + 1)) n
            typeCounters := assocSet st.typeCounters (jsToLower (classifyName n t))
              (counterOf st (jsToLower (classifyName n t)) + 1) } k =
          if k = jsToLower (classifyName n t)
          then counterOf st (jsToLower (classifyName n t)) + 1
          else counterOf st k := by
        intro k
        show (List.lookup k (assocSet st.typeCounters (jsToLower (classifyName n t))
          (counterOf st (jsToLower (classifyName n t)) + 1))).getD 0 = _
        rw [lookup_assocSet]
        by_cases hk : k = jsToLower (classifyName n t)
        · rw [if_pos hk, if_pos hk]
          rfl
        · rw [if_neg hk, if_neg hk]
          rfl
      by_cases hm : msk =
          mkMasked (classifyName n t) (counterOf st (jsToLower (classifyName n t)) + 1)
      · refine ⟨classifyName n t, counterOf st (jsToLower (classifyName n t)) + 1,
          hpool, by omega, ?_, hm⟩
        rw [hcnew, if_pos rfl]
      · rw [if_neg hm] at hx
        obtain ⟨q, c', hq, hc1, hc2, heq⟩ := hwf msk o hx
        refine ⟨q, c', hq, hc1, ?_, heq⟩
        rw [hcnew]
        by_cases hk : jsToLower q = jsToLower (classifyName n t)
        · have hqp : q = classifyName n t := pool_toLower_inj q hq _ hpool hk
          rw [if_pos hk]
          rw [hqp] at hc2
          omega
        · rw [if_neg hk]
          exact hc2

theorem defStep_inv (opts : SanitizeOptions) (reserved : List String)
    (st : SanState) (d : DefCap) (h : TableInv st) :
    TableInv (defStep opts reserved st d) := by
  unfold defStep
  split_ifs <;> first | exact h | exact getReplacement_inv st d.text d.tag h

theorem collectDefs_inv (opts : SanitizeOptions) (reserved : List String)
    (defs : List DefCap) :
    ∀ st : SanState, TableInv st → TableInv (collectDefs opts reserved defs st) := by
  induction defs with
  | nil => intro st h; exact h
  | cons d rest ih =>
    intro st h
    unfold collectDefs at ih ⊢
    rw [List.foldl_cons]
    exact ih _ (defStep_inv opts reserved st d h)

theorem stepState_ident (st : SanState) (cap : Capture) (hn : cap.name = "ident") :
    stepState st cap = st := by
  unfold stepState
  rw [if_neg (by rw [hn]; decide), if_neg (by rw [hn]; decide)]

theorem foldl_state_ident (caps : List Capture) :
    ∀ (txt : List Char) (st : SanState), (∀ c ∈ caps, c.name = "ident") →
      (caps.foldl procStep (txt, st)).2 = st := by
  induction caps with
  | nil => intro txt st _; rfl
  | cons c rest ih =>
    intro txt st hall
    rw [List.foldl_cons]
    have hps : procStep (txt, st) c = (stepText txt st c, st) := by
      unfold procStep
      rw [stepState_ident st c (hall c (by simp))]
    rw [hps]
    exact ih _ _ (fun c' hc' => hall c' (by simp [hc']))

theorem capKept_ident (opts : SanitizeOptions) (c : Capture)
    (h1 : opts.maskStrings = false) (h2 : opts.removeComments = false)
    (hk : capKept opts c = true) : c.name = "ident" := by
  unfold capKept at hk
  rw [h1, h2] at hk
  simpa using hk

theorem replacePass_state (opts : SanitizeOptions) (code : List Char)
    (caps : List Capture) (st : SanState)
    (h1 : opts.maskStrings = false) (h2 : opts.removeComments = false) :
    (replacePass opts code caps st).2 = st := by
  unfold replacePass
  apply foldl_state_ident
  intro c hc
  have hmem : c ∈ caps.filter (capKept opts) :=
    ((List.perm_insertionSort capDesc _).mem_iff).mp hc
  exact capKept_ident opts c h1 h2 (List.of_mem_filter hmem)

/-- All reachable sanitizer states satisfy the table invariant when no
literal masking is on. -/
theorem sanitize_state_inv (env : SanEnv) (code languageId : String)
    (opts : SanitizeOptions) (h1 : opts.maskStrings = false)
    (h2 : opts.removeComments = false) :
    TableInv (resultState (sanitizeModelFull env code languageId opts)) := by
  unfold sanitizeModelFull resultState
  by_cases hi : (!env.parserInited && !env.initOk) = true
  · rw [if_pos hi]
    exact TableInv_empty
  · rw [if_neg hi]
    by_cases hw : getWasmFile languageId = ""
    · rw [if_pos hw]
      exact TableInv_empty
    · rw [if_neg hw]
      by_cases hl : (!env.loadOk) = true
      · rw [if_pos hl]
        exact TableInv_empty
      · rw [if_neg hl]
        by_cases hq : queriesKeys.contains (queryKeyOf languageId) = true
        · rw [if_pos hq]
          by_cases hd : (!env.defQueryOk) = true
          · rw [if_pos hd]
            exact TableInv_empty
          · rw [if_neg hd]
            by_cases hr : (!env.replaceQueryOk) = true
            · rw [if_pos hr]
              exact collectDefs_inv opts _ env.defCaptures emptySt TableInv_empty
            · rw [if_neg hr]
              show TableInv (replacePass opts code.data env.captures
                (collectDefs opts (activeReserved opts) env.defCaptures emptySt)).2
              rw [replacePass_state opts code.data env.captures _ h1 h2]
              exact collectDefs_inv opts _ env.defCaptures emptySt TableInv_empty
        · rw [if_neg hq]
          by_cases hr : (!env.replaceQueryOk) = true
          · rw [if_pos hr]
            exact TableInv_empty
          · rw [if_neg hr]
            show TableInv (replacePass opts code.data env.captures emptySt).2
            rw [replacePass_state opts code.data env.captures _ h1 h2]
            exact TableInv_empty

/-- C2 as amended: for every `sanitize` call with `maskStrings` and
`removeComments` disabled, the forward and backward tables at exit are
mutual inverses — hence injective in both directions: no original maps
to two maskeds, no masked maps to two originals, and every backward
entry corresponds to a forward entry. -/
theorem mapping_bijective_without_literal_masking :
    ∀ (env : SanEnv) (code languageId : String) (opts : SanitizeOptions),
      opts.maskStrings = false → opts.removeComments = false →
      (∀ o msk, List.lookup o
          (resultState (sanitizeModelFull env code languageId opts)).mapForward = some msk ↔
        List.lookup msk
          (resultState (sanitizeModelFull env code languageId opts)).mapBackward = some o) ∧
      (∀ o o' msk, List.lookup o
          (resultState (sanitizeModelFull env code languageId opts)).mapForward = some msk →
        List.lookup o'
          (resultState (sanitizeModelFull env code languageId opts)).mapForward = some msk →
        o = o') ∧
      (∀ msk msk' o, List.lookup msk
          (resultState (sanitizeModelFull env code languageId opts)).mapBackward = some o →
        List.lookup msk'
          (resultState (sanitizeModelFull env code languageId opts)).mapBackward = some o →
        msk = msk') := by
  intro env code languageId opts h1 h2
  obtain ⟨hmi, _⟩ := sanitize_state_inv env code languageId opts h1 h2
  refine ⟨hmi, ?_, ?_⟩
  · intro o o' msk hx hy
    have hx2 := (hmi o msk).mp hx
    have hy2 := (hmi o' msk).mp hy
    rw [hx2] at hy2
    exact Option.some.inj hy2
  · intro msk msk' o hx hy
    have hx2 := (hmi o msk).mpr hx
    have hy2 := (hmi o msk').mpr hy
    rw [hx2] at hy2
    exact Option.some.inj hy2

/-- C2 witness: the bijection holds for the concrete identifier-only
`const userName = 1;` call. -/
theorem mapping_bijective_without_literal_masking_witness :
    (∀ o msk, List.lookup o
        (resultState (sanitizeModelFull envStrIdent "const userName = 1;" "typescript"
          optsIdentOnly)).mapForward = some msk ↔
      List.lookup msk
        (resultState (sanitizeModelFull envStrIdent "const userName = 1;" "typescript"
          optsIdentOnly)).mapBackward = some o) ∧
    (∀ o o' msk, List.lookup o
        (resultState (sanitizeModelFull envStrIdent "const userName = 1;" "typescript"
          optsIdentOnly)).mapForward = some msk →
      List.lookup o'
        (resultState (sanitizeModelFull envStrIdent "const userName = 1;" "typescript"
          optsIdentOnly)).mapForward = some msk →
      o = o') ∧
    (∀ msk msk' o, List.lookup msk
        (resultState (sanitizeModelFull envStrIdent "const userName = 1;" "typescript"
          optsIdentOnly)).mapBackward = some o →
      List.lookup msk'
        (resultState (sanitizeModelFull envStrIdent "const userName = 1;" "typescript"
          optsIdentOnly)).mapBackward = some o →
      msk = msk') :=
  mapping_bijective_without_literal_masking envStrIdent "const userName = 1;" "typescript"
    optsIdentOnly rfl rfl

/-! ## C4 — the replacement pass as a left-to-right render

The loop splices captures in descending start order, so the splices
never disturb each other's offsets; `renderAll` is the equivalent
left-to-right decomposition, against which conservation of untouched
identifier spans is proved. -/

/-- The segment the output holds over a capture's span: the spliced
replacement, or the original slice when the loop leaves it alone. -/
def segOf (txt : List Char) (st : SanState) (cap : Capture) : List Char :=
  match stepRepl st cap with
  | some r => r.data
  | none => sliceL txt cap.start cap.stop

/-- Left-to-right rendering of the processing of a descending-sorted
capture list. -/
def renderAll (txt : List Char) (st : SanState) : List Capture → List Char
  | [] => txt
  | cap :: rest =>
    renderAll (txt.take cap.start) (stepState st cap) rest ++
      segOf txt st cap ++ txt.drop cap.stop

theorem take_slice_drop {l : List Char} {a b : Nat} (hab : a ≤ b) :
    l.take a ++ sliceL l a b ++ l.drop b = l := by
  have h1 : l.take b = l.take a ++ sliceL l a b := by
    unfold sliceL
    rw [show b = a + (b - a) by omega, List.take_add]
    simp
  calc l.take a ++ sliceL l a b ++ l.drop b
      = (l.take a ++ sliceL l a b) ++ l.drop b := by simp
    _ = l.take b ++ l.drop b := by rw [← h1]
    _ = l := List.take_append_drop b l

theorem stepText_decomp (txt : List Char) (st : SanState) (cap : Capture)
    (hab : cap.start ≤ cap.stop) :
    stepText txt st cap = txt.take cap.start ++ segOf txt st cap ++ txt.drop cap.stop := by
  unfold stepText segOf
  cases h : stepRepl st cap with
  | some r => simp [spliceL]
  | none => exact (take_slice_drop hab).symm

theorem take_append_le {l₁ l₂ : List Char} {n : Nat} (h : n ≤ l₁.length) :
    (l₁ ++ l₂).take n = l₁.take n := by
  rw [List.take_append_eq_append_take, show n - l₁.length = 0 by omega]
  simp

theorem drop_append_le {l₁ l₂ : List Char} {n : Nat} (h : n ≤ l₁.length) :
    (l₁ ++ l₂).drop n = l₁.drop n ++ l₂ := by
  rw [List.drop_append_eq_append_drop, show n - l₁.length = 0 by omega]
  simp

theorem sliceL_append {t tail : List Char} {a b : Nat} (hab : a ≤ b)
    (hb : b ≤ t.length) : sliceL (t ++ tail) a b = sliceL t a b := by
  unfold sliceL
  rw [drop_append_le (by omega)]
  rw [take_append_le (by simp; omega)]

theorem sliceL_take {t : List Char} {a b B : Nat} (hb : b ≤ B) :
    sliceL (t.take B) a b = sliceL t a b := by
  unfold sliceL
  rw [List.drop_take, List.take_take]
  congr 1
  omega

theorem segOf_append {t tail : List Char} {st : SanState} {cap : Capture}
    (hab : cap.start ≤ cap.stop) (hb : cap.stop ≤ t.length) :
    segOf (t ++ tail) st cap = segOf t st cap := by
  unfold segOf
  cases h : stepRepl st cap with
  | some r => rfl
  | none => exact sliceL_append hab hb

/-- Rendering ignores anything appended beyond the spans. -/
theorem renderAll_append (rest : List Capture) (st : SanState) (t tail : List Char)
    (hb : ∀ c' ∈ rest, c'.start ≤ c'.stop ∧ c'.stop ≤ t.length) :
    renderAll (t ++ tail) st rest = renderAll t st rest ++ tail := by
  cases rest with
  | nil => rfl
  | cons cap r2 =>
    have hcap := hb cap (by simp)
    unfold renderAll
    rw [take_append_le (by omega)]
    rw [segOf_append hcap.1 hcap.2]
    rw [drop_append_le (by omega)]
    simp

/-- The descending splice loop equals the left-to-right render. -/
theorem procAll_render (caps : List Capture) :
    ∀ (txt : List Char) (st : SanState),
      List.Pairwise (fun a b => b.stop ≤ a.start) caps →
      (∀ c' ∈ caps, c'.start ≤ c'.stop ∧ c'.stop ≤ txt.length) →
      (caps.foldl procStep (txt, st)).1 = renderAll txt st caps := by
  induction caps with
  | nil => intro txt st _ _; rfl
  | cons cap rest ih =>
    intro txt st hpo hb
    have hcap := hb cap (by simp)
    have hstart_le : cap.start ≤ txt.length := by omega
    rw [List.foldl_cons]
    have hps : procStep (txt, st) cap = (stepText txt st cap, stepState st cap) := rfl
    rw [hps]
    have hdecomp := stepText_decomp txt st cap hcap.1
    have hshape : stepText txt st cap =
        txt.take cap.start ++ (segOf txt st cap ++ txt.drop cap.stop) := by
      rw [hdecomp]; simp
    have hrest_b : ∀ c' ∈ rest, c'.start ≤ c'.stop ∧ c'.stop ≤ (txt.take cap.start).length := by
      intro c' hc'
      refine ⟨(hb c' (by simp [hc'])).1, ?_⟩
      have hpo' := (List.pairwise_cons.mp hpo).1 c' hc'
      simp
      omega
    have ihr := ih (stepText txt st cap) (stepState st cap)
      (List.pairwise_cons.mp hpo).2 ?_
    · rw [ihr]
      rw [hshape]
      rw [renderAll_append rest (stepState st cap) (txt.take cap.start)
        (segOf txt st cap ++ txt.drop cap.stop) hrest_b]
      rw [show renderAll txt st (cap :: rest) =
        renderAll (txt.take cap.start) (stepState st cap) rest ++
          segOf txt st cap ++ txt.drop cap.stop from rfl]
      simp
    · intro c' hc'
      refine ⟨(hb c' (by simp [hc'])).1, ?_⟩
      rw [hshape]
      have := (hrest_b c' hc').2
      simp at this ⊢
      omega

/-- Forward-map entries persist across one replacement-loop step. -/
theorem stepState_fwd_mono (st : SanState) (cap : Capture) (k v : String)
    (h : List.lookup k st.mapForward = some v) :
    List.lookup k (stepState st cap).mapForward = some v := by
  unfold stepState
  by_cases h1 : cap.name = "cmt"
  · rw [if_pos h1]
    exact h
  · rw [if_neg h1]
    by_cases h2 : cap.name = "str"
    · rw [if_pos h2]
      by_cases h3 : cap.parentType = "import_statement" ∨ cap.parentType = "export_statement"
      · rw [if_pos h3]
        exact h
      · rw [if_neg h3]
        by_cases h4 : (List.lookup cap.text st.mapForward).isSome = true
        · rw [if_pos h4]
          exact h
        · rw [if_neg h4]
          have hnone : List.lookup cap.text st.mapForward = none := by
            cases hc : List.lookup cap.text st.mapForward
            · rfl
            · rw [hc] at h4
              simp at h4
          show List.lookup k (assocSet st.mapForward cap.text _) = some v
          rw [lookup_assocSet]
          by_cases hk : k = cap.text
          · rw [hk, hnone] at h
            exact absurd h (by simp)
          · rw [if_neg hk]
            exact h
    · rw [if_neg h2]
      exact h

theorem foldl_stepState_fwd_mono (caps : List Capture) :
    ∀ (st : SanState) (k v : String), List.lookup k st.mapForward = some v →
      List.lookup k (caps.foldl stepState st).mapForward = some v := by
  induction caps with
  | nil => intro st k v h; exact h
  | cons cap rest ih =>
    intro st k v h
    rw [List.foldl_cons]
    exact ih _ k v (stepState_fwd_mono st cap k v h)

theorem foldl_stepState_fwd_none (caps : List Capture) (st : SanState) (k : String)
    (h : List.lookup k (caps.foldl stepState st).mapForward = none) :
    List.lookup k st.mapForward = none := by
  cases hc : List.lookup k st.mapForward with
  | none => rfl
  | some v =>
    rw [foldl_stepState_fwd_mono caps st k v hc] at h
    exact absurd h (by simp)

/-- The state component of the splice fold. -/
theorem foldl_procStep_snd (caps : List Capture) :
    ∀ (txt : List Char) (st : SanState),
      (caps.foldl procStep (txt, st)).2 = caps.foldl stepState st := by
  induction caps with
  | nil => intro txt st; rfl
  | cons cap rest ih =>
    intro txt st
    rw [List.foldl_cons, List.foldl_cons]
    exact ih _ _

/-- An identifier capture whose text never enters the forward map is
rendered as its original slice somewhere in the output. -/
theorem renderAll_piece (caps : List Capture) :
    ∀ (txt : List Char) (st : SanState) (c : Capture),
      c ∈ caps → c.name = "ident" →
      List.Pairwise (fun a b => b.stop ≤ a.start) caps →
      (∀ c' ∈ caps, c'.start ≤ c'.stop ∧ c'.stop ≤ txt.length) →
      List.lookup c.text (caps.foldl stepState st).mapForward = none →
      ∃ u v, renderAll txt st caps = u ++ sliceL txt c.start c.stop ++ v := by
  induction caps with
  | nil =>
    intro txt st c hc
    exact absurd hc (by simp)
  | cons cap rest ih =>
    intro txt st c hc hname hpo hb hnone
    rw [List.foldl_cons] at hnone
    rcases List.mem_cons.mp hc with rfl | hc2
    · -- the head capture is the untouched identifier
      have hst : List.lookup c.text st.mapForward = none := by
        have := foldl_stepState_fwd_none rest (stepState st c) c.text hnone
        cases hcc : List.lookup c.text st.mapForward with
        | none => rfl
        | some v =>
          rw [stepState_fwd_mono st c c.text v hcc] at this
          exact absurd this (by simp)
      have hseg : segOf txt st c = sliceL txt c.start c.stop := by
        unfold segOf stepRepl
        rw [if_neg (by rw [hname]; decide), if_neg (by rw [hname]; decide)]
        rw [hst]
      refine ⟨renderAll (txt.take c.start) (stepState st c) rest, txt.drop c.stop, ?_⟩
      rw [show renderAll txt st (c :: rest) =
        renderAll (txt.take c.start) (stepState st c) rest ++
          segOf txt st c ++ txt.drop c.stop from rfl]
      rw [hseg]
    · -- the identifier lies further down the (descending) list
      have hcapb := hb cap (by simp)
      have hpo1 := (List.pairwise_cons.mp hpo).1
      have hrest_b : ∀ c' ∈ rest, c'.start ≤ c'.stop ∧
          c'.stop ≤ (txt.take cap.start).length := by
        intro c' hc'
        refine ⟨(hb c' (by simp [hc'])).1, ?_⟩
        have := hpo1 c' hc'
        simp
        omega
      obtain ⟨u, v, huv⟩ := ih (txt.take cap.start) (stepState st cap) c hc2 hname
        (List.pairwise_cons.mp hpo).2 hrest_b hnone
      have hslice : sliceL (txt.take cap.start) c.start c.stop =
          sliceL txt c.start c.stop :=
        sliceL_take (hpo1 c hc2)
      refine ⟨u, v ++ segOf txt st cap ++ txt.drop cap.stop, ?_⟩
      rw [show renderAll txt st (cap :: rest) =
        renderAll (txt.take cap.start) (stepState st cap) rest ++
          segOf txt st cap ++ txt.drop cap.stop from rfl]
      rw [huv, hslice]
      simp

/-! ### Backward keys always contain a digit -/

/-- Every backward-map key holds at least one digit (minted masked
names end in a counter, tags embed one). -/
def KeysDigit (st : SanState) : Prop :=
  ∀ msk o, List.lookup msk st.mapBackward = some o →
    ∃ ch ∈ msk.data, isDigitC ch = true

theorem KeysDigit_empty : KeysDigit emptySt := by
  intro msk o h
  simp [emptySt] at h

theorem mkMasked_has_digit (p : String) (c : Nat) :
    ∃ ch ∈ (mkMasked p c).data, isDigitC ch = true := by
  obtain ⟨d1, ds1, h1⟩ := List.exists_cons_of_ne_nil (toDec_ne_nil c)
  refine ⟨d1, ?_, toDec_digits c d1 (by rw [h1]; simp)⟩
  rw [mkMasked_data, h1]
  simp

theorem cmtTagStr_has_digit (n : Nat) :
    ∃ ch ∈ (cmtTagStr n).data, isDigitC ch = true := by
  obtain ⟨d1, ds1, h1⟩ := List.exists_cons_of_ne_nil (toDec_ne_nil n)
  refine ⟨d1, ?_, toDec_digits n d1 (by rw [h1]; simp)⟩
  simp [cmtTagStr, String.data_append, h1]

theorem strTagStr_has_digit (n : Nat) :
    ∃ ch ∈ (strTagStr n).data, isDigitC ch = true := by
  obtain ⟨d1, ds1, h1⟩ := List.exists_cons_of_ne_nil (toDec_ne_nil n)
  refine ⟨d1, ?_, toDec_digits n d1 (by rw [h1]; simp)⟩
  simp [strTagStr, String.data_append, h1]

theorem getReplacement_keysDigit (st : SanState) (n t : String) (h : KeysDigit st) :
    KeysDigit (getReplacement st n t).2 := by
  cases hf : List.lookup n st.mapForward with
  | some m =>
    rw [getReplacement_state_of_found st n t m hf]
    exact h
  | none =>
    rw [getReplacement_state_of_new st n t hf]
    intro msk o hx
    rw [show List.lookup msk _ =
        List.lookup msk (assocSet st.mapBackward
          (mkMasked (classifyName n t) (counterOf st (jsToLower (classifyName n t)) + 1)) n)
        from rfl] at hx
    rw [lookup_assocSet] at hx
    by_cases hm : msk =
        mkMasked (classifyName n t) (counterOf st (jsToLower (classifyName n t)) + 1)
    · rw [hm]
      exact mkMasked_has_digit _ _
    · rw [if_neg hm] at hx
      exact h msk o hx

theorem defStep_keysDigit (opts : SanitizeOptions) (reserved : List String)
    (st : SanState) (d : DefCap) (h : KeysDigit st) :
    KeysDigit (defStep opts reserved st d) := by
  unfold defStep
  split_ifs <;> first | exact h | exact getReplacement_keysDigit st d.text d.tag h

theorem collectDefs_keysDigit (opts : SanitizeOptions) (reserved : List String)
    (defs : List DefCap) :
    ∀ st : SanState, KeysDigit st → KeysDigit (collectDefs opts reserved defs st) := by
  induction defs with
  | nil => intro st h; exact h
  | cons d rest ih =>
    intro st h
    unfold collectDefs at ih ⊢
    rw [List.foldl_cons]
    exact ih _ (defStep_keysDigit opts reserved st d h)

theorem stepState_keysDigit (st : SanState) (cap : Capture) (h : KeysDigit st) :
    KeysDigit (stepState st cap) := by
  unfold stepState
  by_cases h1 : cap.name = "cmt"
  · rw [if_pos h1]
    intro msk o hx
    rw [show List.lookup msk _ =
        List.lookup msk (assocSet st.mapBackward
          (cmtTagStr ((List.lookup "CMT" st.typeCounters).getD 0 + 1))
          (cmtMask cap.text (cmtTagStr ((List.lookup "CMT" st.typeCounters).getD 0 + 1))).2)
        from rfl] at hx
    rw [lookup_assocSet] at hx
    by_cases hm : msk = cmtTagStr ((List.lookup "CMT" st.typeCounters).getD 0 + 1)
    · rw [hm]
      exact cmtTagStr_has_digit _
    · rw [if_neg hm] at hx
      exact h msk o hx
  · rw [if_neg h1]
    by_cases h2 : cap.name = "str"
    · rw [if_pos h2]
      by_cases h3 : cap.parentType = "import_statement" ∨ cap.parentType = "export_statement"
      · rw [if_pos h3]
        exact h
      · rw [if_neg h3]
        by_cases h4 : (List.lookup cap.text st.mapForward).isSome = true
        · rw [if_pos h4]
          exact h
        · rw [if_neg h4]
          intro msk o hx
          rw [show List.lookup msk _ =
              List.lookup msk (assocSet st.mapBackward
                (strTagStr ((List.lookup "STR" st.typeCounters).getD 0 + 1)) cap.text)
              from rfl] at hx
          rw [lookup_assocSet] at hx
          by_cases hm : msk = strTagStr ((List.lookup "STR" st.typeCounters).getD 0 + 1)
          · rw [hm]
            exact strTagStr_has_digit _
          · rw [if_neg hm] at hx
            exact h msk o hx
    · rw [if_neg h2]
      exact h

theorem foldl_stepState_keysDigit (caps : List Capture) :
    ∀ st : SanState, KeysDigit st → KeysDigit (caps.foldl stepState st) := by
  induction caps with
  | nil => intro st h; exact h
  | cons cap rest ih =>
    intro st h
    rw [List.foldl_cons]
    exact ih _ (stepState_keysDigit st cap h)

theorem slice_infix_self {code : List Char} {a b : Nat} (hab : a ≤ b) :
    ∃ u v, code = u ++ sliceL code a b ++ v :=
  ⟨code.take a, code.drop b, (take_slice_drop hab).symm⟩

theorem keysDigit_lookup_none {S : SanState} (hS : KeysDigit S) {k : String}
    (hk : ∀ ch ∈ k.data, isDigitC ch = false) :
    List.lookup k S.mapBackward = none := by
  cases hx : List.lookup k S.mapBackward with
  | none => rfl
  | some o =>
    obtain ⟨ch, hch, hdig⟩ := hS k o hx
    rw [hk ch hch] at hdig
    exact absurd hdig (by simp)

theorem main_branch_conserved (env : SanEnv) (code : String) (opts : SanitizeOptions)
    (c : Capture) (out : String) (mp : List (String × String)) (st st0 : SanState)
    (hkd0 : KeysDigit st0)
    (hc : c ∈ env.captures) (hname : c.name = "ident")
    (hdisj : List.Pairwise (fun a b : Capture => a.stop ≤ b.start ∨ b.stop ≤ a.start) env.captures)
    (hbounds : ∀ c' ∈ env.captures, c'.start < c'.stop ∧ c'.stop ≤ code.data.length)
    (htext : c.text.data = sliceL code.data c.start c.stop)
    (hfwd : List.lookup c.text st.mapForward = none)
    (h1 : String.mk (replacePass opts code.data env.captures st0).1 = out)
    (h2 : (replacePass opts code.data env.captures st0).2.mapBackward = mp)
    (h3 : (replacePass opts code.data env.captures st0).2 = st) :
    (∃ u v, out.data = u ++ c.text.data ++ v) ∧
    ((∀ ch ∈ c.text.data, isDigitC ch = false) →
      List.lookup c.text st.mapBackward = none ∧
      List.lookup c.text mp = none) := by
  set sorted := List.insertionSort capDesc (env.captures.filter (capKept opts)) with hs
  have hsorted_def : replacePass opts code.data env.captures st0 =
      sorted.foldl procStep (code.data, st0) := by
    rw [hs]
    rfl
  have hkept : capKept opts c = true := by
    simp [capKept, hname]
  have hperm : sorted.Perm (env.captures.filter (capKept opts)) := by
    rw [hs]
    exact List.perm_insertionSort capDesc _
  have hcs : c ∈ sorted := hperm.mem_iff.mpr (List.mem_filter.mpr ⟨hc, hkept⟩)
  have hmem_env : ∀ x ∈ sorted, x ∈ env.captures := fun x hx =>
    (List.mem_filter.mp (hperm.mem_iff.mp hx)).1
  have hsymm : ∀ {x y : Capture}, (x.stop ≤ y.start ∨ y.stop ≤ x.start) →
      (y.stop ≤ x.start ∨ x.stop ≤ y.start) := by
    intro x y h
    tauto
  have hdisj_s : List.Pairwise
      (fun a b : Capture => a.stop ≤ b.start ∨ b.stop ≤ a.start) sorted :=
    (hperm.pairwise_iff hsymm).mpr (hdisj.filter (capKept opts))
  have hsort : List.Pairwise capDesc sorted := by
    rw [hs]
    exact List.sorted_insertionSort capDesc _
  have hpo : List.Pairwise (fun a b : Capture => b.stop ≤ a.start) sorted := by
    refine (hsort.and hdisj_s).imp_of_mem ?_
    intro a b ha hb hab
    have hba := hbounds b (hmem_env b hb)
    have haa := hbounds a (hmem_env a ha)
    have hdesc : b.start ≤ a.start := hab.1
    rcases hab.2 with h | h
    · omega
    · exact h
  have hb_s : ∀ c' ∈ sorted, c'.start ≤ c'.stop ∧ c'.stop ≤ code.data.length := by
    intro c' hc'
    have h := hbounds c' (hmem_env c' hc')
    exact ⟨Nat.le_of_lt h.1, h.2⟩
  have hrender : (replacePass opts code.data env.captures st0).1 =
      renderAll code.data st0 sorted := by
    rw [hsorted_def]
    exact procAll_render sorted code.data st0 hpo hb_s
  have hstate : (replacePass opts code.data env.captures st0).2 =
      sorted.foldl stepState st0 := by
    rw [hsorted_def]
    exact foldl_procStep_snd sorted code.data st0
  have hfwd' : List.lookup c.text (sorted.foldl stepState st0).mapForward = none := by
    rw [← hstate, h3]
    exact hfwd
  obtain ⟨u, v, huv⟩ := renderAll_piece sorted code.data st0 c hcs hname hpo hb_s hfwd'
  have hkdst : KeysDigit st := by
    rw [← h3, hstate]
    exact foldl_stepState_keysDigit sorted st0 hkd0
  refine ⟨⟨u, v, ?_⟩, ?_⟩
  · rw [← h1]
    show (replacePass opts code.data env.captures st0).1 = u ++ c.text.data ++ v
    rw [hrender, huv, htext]
  · intro hnodig
    have hbwd : List.lookup c.text st.mapBackward = none :=
      keysDigit_lookup_none hkdst hnodig
    refine ⟨hbwd, ?_⟩
    rw [← h2, h3]
    exact hbwd

/-- `const userName = console;` with a definition for `userName` and two
identifier captures, only one of which is a definition occurrence. -/
def envC4 : SanEnv :=
  { parserInited := true, initOk := true, loadOk := true, defQueryOk := true,
    replaceQueryOk := true,
    defCaptures := [⟨"userName", "def.var"⟩],
    captures := [⟨6, 14, "userName", "ident", "variable_declarator"⟩,
                 ⟨17, 24, "console", "ident", "call_expression"⟩] }

/-- C4 as amended: an identifier-class token whose text is not in the
forward map is conserved — its span appears character-for-character in
the sanitized output — under any option combination, for
pairwise-disjoint in-bounds captures; if moreover its text holds no
digit (every minted masked name and tag embeds a counter digit), the
text is a key of neither the backward map nor the returned mapping. -/
theorem untouched_identifier_conserved :
    ∀ (env : SanEnv) (code languageId : String) (opts : SanitizeOptions)
      (c : Capture) (out : String) (mp : List (String × String)) (st : SanState),
      sanitizeModelFull env code languageId opts = .ok (out, mp, st) →
      c ∈ env.captures → c.name = "ident" →
      List.Pairwise (fun a b : Capture => a.stop ≤ b.start ∨ b.stop ≤ a.start) env.captures →
      (∀ c' ∈ env.captures, c'.start < c'.stop ∧ c'.stop ≤ code.data.length) →
      c.text.data = sliceL code.data c.start c.stop →
      List.lookup c.text st.mapForward = none →
      (∃ u v, out.data = u ++ c.text.data ++ v) ∧
      ((∀ ch ∈ c.text.data, isDigitC ch = false) →
        List.lookup c.text st.mapBackward = none ∧
        List.lookup c.text mp = none) := by
  intro env code languageId opts c out mp st hok hc hname hdisj hbounds htext hfwd
  have hcb := hbounds c hc
  have hslice : ∃ u v, code.data = u ++ c.text.data ++ v := by
    rw [htext]
    exact slice_infix_self (by omega)
  unfold sanitizeModelFull at hok
  by_cases hi : (!env.parserInited && !env.initOk) = true
  · rw [if_pos hi] at hok
    exact absurd hok (by simp)
  · rw [if_neg hi] at hok
    by_cases hw : getWasmFile languageId = ""
    · rw [if_pos hw] at hok
      simp only [Except.ok.injEq, Prod.mk.injEq] at hok
      obtain ⟨h1, h2, h3⟩ := hok
      rw [← h1, ← h2, ← h3]
      exact ⟨hslice, fun _ => ⟨rfl, rfl⟩⟩
    · rw [if_neg hw] at hok
      by_cases hl : (!env.loadOk) = true
      · rw [if_pos hl] at hok
        simp only [Except.ok.injEq, Prod.mk.injEq] at hok
        obtain ⟨h1, h2, h3⟩ := hok
        rw [← h1, ← h2, ← h3]
        exact ⟨hslice, fun _ => ⟨rfl, rfl⟩⟩
      · rw [if_neg hl] at hok
        by_cases hq : queriesKeys.contains (queryKeyOf languageId) = true
        · rw [if_pos hq] at hok
          by_cases hd : (!env.defQueryOk) = true
          · rw [if_pos hd] at hok
            simp only [Except.ok.injEq, Prod.mk.injEq] at hok
            obtain ⟨h1, h2, h3⟩ := hok
            rw [← h1, ← h2, ← h3]
            exact ⟨hslice, fun _ => ⟨rfl, rfl⟩⟩
          · rw [if_neg hd] at hok
            by_cases hr : (!env.replaceQueryOk) = true
            · rw [if_pos hr] at hok
              simp only [Except.ok.injEq, Prod.mk.injEq] at hok
              obtain ⟨h1, h2, h3⟩ := hok
              have hkd : KeysDigit (collectDefs opts (activeReserved opts)
                  env.defCaptures emptySt) :=
                collectDefs_keysDigit opts _ env.defCaptures emptySt KeysDigit_empty
              rw [← h1, ← h2, ← h3]
              exact ⟨hslice, fun hnd => ⟨keysDigit_lookup_none hkd hnd, rfl⟩⟩
            · rw [if_neg hr] at hok
              simp only [Except.ok.injEq, Prod.mk.injEq] at hok
              obtain ⟨h1, h2, h3⟩ := hok
              exact main_branch_conserved env code opts c out mp st
                (collectDefs opts (activeReserved opts) env.defCaptures emptySt)
                (collectDefs_keysDigit opts _ env.defCaptures emptySt KeysDigit_empty)
                hc hname hdisj hbounds htext hfwd h1 h2 h3
        · rw [if_neg hq] at hok
          by_cases hr : (!env.replaceQueryOk) = true
          · rw [if_pos hr] at hok
            simp only [Except.ok.injEq, Prod.mk.injEq] at hok
            obtain ⟨h1, h2, h3⟩ := hok
            rw [← h1, ← h2, ← h3]
            exact ⟨hslice, fun _ => ⟨rfl, rfl⟩⟩
          · rw [if_neg hr] at hok
            simp only [Except.ok.injEq, Prod.mk.injEq] at hok
            obtain ⟨h1, h2, h3⟩ := hok
            exact main_branch_conserved env code opts c out mp st emptySt
              KeysDigit_empty hc hname hdisj hbounds htext hfwd h1 h2 h3

/-- C4 witness: in `const userName = console;`, the identifier `console`
is never mapped; it survives verbatim in the sanitized output
`const STR_1 = console;` and, being digit-free, is not a key of the
mapping. -/
theorem untouched_identifier_conserved_witness :
    (∃ u v, ("const STR_1 = console;" : String).data =
      u ++ ("console" : String).data ++ v) ∧
    List.lookup ("console" : String) [(("STR_1" : String), ("userName" : String))] = none ∧
    List.lookup ("console" : String) [(("STR_1" : String), ("userName" : String))] = none := by
  obtain ⟨hconsv, hnokey⟩ :=
    untouched_identifier_conserved envC4 "const userName = console;" "typescript" optsAll
      ⟨17, 24, "console", "ident", "call_expression"⟩
      "const STR_1 = console;" [("STR_1", "userName")]
      ⟨[("userName", "STR_1")], [("STR_1", "userName")], [("str", 1)]⟩
      (by decide) (by decide) rfl (by decide) (by decide) (by decide) (by decide)
  exact ⟨hconsv, hnokey (by decide)⟩

/-- When every non-skipped masked name constructs, the identifier pass
succeeds and returns exactly the total pass-3 text. -/
theorem identPassE_ok (env : RegexEnv) (m : List (String × String)) :
    ∀ t, (∀ kv ∈ m, jsStartsWith kv.1 "STR" = true ∨
        jsStartsWith kv.1 "[[" = true ∨ env.compileOk kv.1 = true) →
      identPassE env m t = .ok (identPass m t) := by
  induction m with
  | nil =>
    intro t _
    simp [identPassE, identPass]
  | cons kv rest ih =>
    intro t hall
    have hrest : ∀ kv' ∈ rest, jsStartsWith kv'.1 "STR" = true ∨
        jsStartsWith kv'.1 "[[" = true ∨ env.compileOk kv'.1 = true := by
      intro kv' h
      exact hall kv' (by simp [h])
    rw [identPass_cons]
    by_cases h1 : jsStartsWith kv.1 "STR" = true
    · rw [show identPassE env (kv :: rest) t = identPassE env rest t by
        simp [identPassE, identStepE, h1]]
      rw [if_pos h1]
      exact ih t hrest
    · by_cases h2 : jsStartsWith kv.1 "[[" = true
      · rw [show identPassE env (kv :: rest) t = identPassE env rest t by
          simp [identPassE, identStepE, h1, h2]]
        rw [if_neg h1, if_pos h2]
        exact ih t hrest
      · have h3 : env.compileOk kv.1 = true := by
          rcases hall kv (by simp) with h | h | h
          · exact absurd h h1
          · exact absurd h h2
          · exact h
        rw [show identPassE env (kv :: rest) t =
            identPassE env rest (replaceWordAll kv.1.data kv.2.data t) by
          simp [identPassE, identStepE, h1, h2, h3]]
        rw [if_neg h1, if_neg h2]
        exact ih _ hrest

/-! ## C8 — unknown masked-looking tokens among restorations -/

/-- A separator character: neither a word character nor a bracket —
such a character belongs to no `[[KIND_d]]` tag match and to no
word-character masked name. -/
def isSepC (c : Char) : Bool :=
  !isWordC c && !(c == '[') && !(c == ']')

theorem isSepC_not_word {s : Char} (hs : isSepC s = true) : isWordC s = false := by
  cases hw : isWordC s
  · rfl
  · unfold isSepC at hs
    rw [hw] at hs
    exact absurd hs (by simp)

theorem isSepC_ne_lbracket {s : Char} (hs : isSepC s = true) : s ≠ '[' := by
  intro h
  rw [h] at hs
  exact absurd hs (by decide)

theorem isSepC_ne_rbracket {s : Char} (hs : isSepC s = true) : s ≠ ']' := by
  intro h
  rw [h] at hs
  exact absurd hs (by decide)

theorem isDigitC_word {c : Char} (h : isDigitC c = true) : isWordC c = true := by
  unfold isDigitC at h
  unfold isWordC
  simp only [Bool.and_eq_true] at h
  simp [h.1, h.2]

theorem isSepC_not_digit {s : Char} (hs : isSepC s = true) : isDigitC s = false := by
  cases hd : isDigitC s
  · rfl
  · have hw := isDigitC_word hd
    rw [isSepC_not_word hs] at hw
    exact absurd hw (by simp)

/-- A prefix test ignores everything from a character absent from the
pattern on: `p.isPrefixOf (x ++ s :: y)` equals `p.isPrefixOf x` when
`s` occurs nowhere in `p`. -/
theorem isPrefixOf_sep_irrel {p : List Char} {s : Char} (h : ∀ c ∈ p, c ≠ s) :
    ∀ (x y : List Char), p.isPrefixOf (x ++ s :: y) = p.isPrefixOf x := by
  induction p with
  | nil =>
    intro x y
    simp [List.isPrefixOf]
  | cons a p' ih =>
    intro x y
    cases x with
    | nil =>
      have ha : (a == s) = false := by
        simpa using h a (by simp)
      simp [List.isPrefixOf, ha]
    | cons b x' =>
      simp only [List.cons_append, List.isPrefixOf]
      rw [show List.append x' (s :: y) = x' ++ s :: y from rfl]
      rw [ih (fun c hc => h c (by simp [hc])) x' y]

theorem takeWhile_append_stop {p : Char → Bool} {s : Char} (hs : p s = false) :
    ∀ (x y : List Char), List.takeWhile p (x ++ s :: y) = List.takeWhile p x := by
  intro x
  induction x with
  | nil =>
    intro y
    simp [List.takeWhile_cons, hs]
  | cons a x' ih =>
    intro y
    cases ha : p a with
    | false => simp [List.takeWhile_cons, ha]
    | true => simp [List.takeWhile_cons, ha, ih y]

theorem pre_ne_sep {kind : List Char} {s : Char}
    (hkind : ∀ c ∈ kind, isWordC c = true) (hs : isSepC s = true) :
    ∀ c ∈ ('[' :: '[' :: (kind ++ ['_'])), c ≠ s := by
  intro c hc
  simp only [List.mem_cons, List.mem_append, List.not_mem_nil, or_false] at hc
  rcases hc with rfl | rfl | hc | rfl
  · exact fun h => isSepC_ne_lbracket hs h.symm
  · exact fun h => isSepC_ne_lbracket hs h.symm
  · intro h
    have hw := hkind c hc
    rw [h, isSepC_not_word hs] at hw
    exact absurd hw (by simp)
  · intro h
    have hw : isWordC '_' = true := by decide
    rw [h, isSepC_not_word hs] at hw
    exact absurd hw (by simp)

/-- A tag match never reaches past a separator: matching on
`x ++ s :: y` is matching on `x`, with `s :: y` carried into the
rest. -/
theorem matchTagAt_sep {kind : List Char} {s : Char}
    (hkind : ∀ c ∈ kind, isWordC c = true) (hs : isSepC s = true)
    (x y : List Char) :
    matchTagAt kind (x ++ s :: y) =
      (matchTagAt kind x).map (fun r => (r.1, r.2 ++ s :: y)) := by
  have hP : ('[' :: '[' :: (kind ++ ['_'])).isPrefixOf (x ++ s :: y) =
      ('[' :: '[' :: (kind ++ ['_'])).isPrefixOf x :=
    isPrefixOf_sep_irrel (pre_ne_sep hkind hs) x y
  by_cases hp : ('[' :: '[' :: (kind ++ ['_'])).isPrefixOf x = true
  · have hK : kind.length + 3 ≤ x.length := by
      have := isPrefixOf_length hp
      simp at this
      omega
    have hdrop1 : (x ++ s :: y).drop (kind.length + 3) =
        x.drop (kind.length + 3) ++ s :: y := drop_append_le hK
    have hT : List.takeWhile isDigitC ((x ++ s :: y).drop (kind.length + 3)) =
        List.takeWhile isDigitC (x.drop (kind.length + 3)) := by
      rw [hdrop1]
      exact takeWhile_append_stop (isSepC_not_digit hs) _ y
    have hTlen : (List.takeWhile isDigitC (x.drop (kind.length + 3))).length ≤
        (x.drop (kind.length + 3)).length := by
      have : List.takeWhile isDigitC (x.drop (kind.length + 3)) <:+:
          x.drop (kind.length + 3) :=
        (List.takeWhile_prefix isDigitC).isInfix
      exact this.length_le
    have hdrop2 : ((x ++ s :: y).drop (kind.length + 3)).drop
        (List.takeWhile isDigitC (x.drop (kind.length + 3))).length =
        (x.drop (kind.length + 3)).drop
          (List.takeWhile isDigitC (x.drop (kind.length + 3))).length ++ s :: y := by
      rw [hdrop1]
      exact drop_append_le hTlen
    have hP2 : [']', ']'].isPrefixOf
        ((x.drop (kind.length + 3)).drop
          (List.takeWhile isDigitC (x.drop (kind.length + 3))).length ++ s :: y) =
        [']', ']'].isPrefixOf
        ((x.drop (kind.length + 3)).drop
          (List.takeWhile isDigitC (x.drop (kind.length + 3))).length) := by
      refine isPrefixOf_sep_irrel ?_ _ y
      intro c hc
      simp only [List.mem_cons, List.not_mem_nil, or_false] at hc
      rcases hc with rfl | rfl <;>
        exact fun h => isSepC_ne_rbracket hs h.symm
    unfold matchTagAt
    rw [hP, hT, hdrop2, hP2]
    split_ifs with hcond1 hcond2
    · rfl
    · have h2r : 2 ≤ ((x.drop (kind.length + 3)).drop
          (List.takeWhile isDigitC (x.drop (kind.length + 3))).length).length := by
        have := isPrefixOf_length hcond2
        simpa using this
      rw [drop_append_le h2r]
      rfl
    · rfl
  · have hpf : ('[' :: '[' :: (kind ++ ['_'])).isPrefixOf x = false := by
      cases hx : ('[' :: '[' :: (kind ++ ['_'])).isPrefixOf x
      · rfl
      · exact absurd hx hp
    rw [matchTagAt_none_of_not_pre (hP.trans hpf),
        matchTagAt_none_of_not_pre hpf]
    rfl

/-- The tag scan splits at a separator: everything left of the
separator is scanned as if alone, the separator is copied, and the
scan continues on the right half. -/
theorem replaceTags_sep_aux {kind : List Char} {s : Char}
    (hkind : ∀ c ∈ kind, isWordC c = true) (hs : isSepC s = true)
    (m : List (String × String)) (f : String → List Char) :
    ∀ (fuel : Nat) (x y : List Char), (x ++ s :: y).length ≤ fuel →
      replaceTagsAux kind m f fuel (x ++ s :: y) =
        replaceTags kind m f x ++ s :: replaceTags kind m f y := by
  intro fuel
  induction fuel with
  | zero =>
    intro x y h
    simp at h
  | succ fuel ih =>
    intro x y hlen
    cases x with
    | nil =>
      have hm : matchTagAt kind (s :: y) = none :=
        matchTagAt_no_head kind y (isSepC_ne_lbracket hs)
      simp only [List.nil_append] at hlen ⊢
      rw [show replaceTagsAux kind m f (fuel + 1) (s :: y) =
          s :: replaceTagsAux kind m f fuel y by
        simp [replaceTagsAux, hm]]
      rw [replaceTagsAux_fuel kind m f fuel y y.length
        (by simp at hlen; omega) (le_refl _)]
      rfl
    | cons c x' =>
      have hctx := matchTagAt_sep hkind hs (c :: x') y
      cases hmx : matchTagAt kind (c :: x') with
      | none =>
        rw [hmx] at hctx
        simp only [Option.map_none', List.cons_append] at hctx
        have hstep : replaceTagsAux kind m f (fuel + 1) ((c :: x') ++ s :: y) =
            c :: replaceTagsAux kind m f fuel (x' ++ s :: y) := by
          rw [show (c :: x') ++ s :: y = c :: (x' ++ s :: y) from rfl]
          simp [replaceTagsAux, hctx]
        rw [hstep]
        rw [ih x' y (by simp at hlen ⊢; omega)]
        rw [replaceTags_cons_no kind m f c x' hmx]
        rfl
      | some r =>
        obtain ⟨tg, a⟩ := r
        rw [hmx] at hctx
        simp only [Option.map_some', List.cons_append] at hctx
        have hstep : replaceTagsAux kind m f (fuel + 1) ((c :: x') ++ s :: y) =
            (match List.lookup (String.mk tg) m with
             | some v => f v
             | none => tg) ++ replaceTagsAux kind m f fuel (a ++ s :: y) := by
          rw [show (c :: x') ++ s :: y = c :: (x' ++ s :: y) from rfl]
          simp [replaceTagsAux, hctx]
        have hlen2 : (a ++ s :: y).length ≤ fuel := by
          obtain ⟨heq, hr⟩ := matchTagAt_split hmx
          obtain ⟨r', hr'⟩ := hr
          have hlA : (c :: x').length = tg.length + a.length := by
            rw [heq]
            simp
          subst hr'
          simp at hlA hlen ⊢
          omega
        rw [hstep, ih a y hlen2, replaceTags_match m f hmx]
        simp

theorem replaceTags_sep {kind : List Char} {s : Char}
    (hkind : ∀ c ∈ kind, isWordC c = true) (hs : isSepC s = true)
    (m : List (String × String)) (f : String → List Char) (x y : List Char) :
    replaceTags kind m f (x ++ s :: y) =
      replaceTags kind m f x ++ s :: replaceTags kind m f y :=
  replaceTags_sep_aux hkind hs m f (x ++ s :: y).length x y (le_refl _)

theorem isWordC_ne_lbracket {c : Char} (h : isWordC c = true) : c ≠ '[' := by
  intro he
  rw [he] at h
  exact absurd h (by decide)

/-- A tag of the scanned kind whose tag string is not a mapping key is
emitted unchanged and the scan continues after it. -/
theorem replaceTags_tag_unknown {kind d : List Char} (m : List (String × String))
    (f : String → List Char) (rest : List Char) (hd : d ≠ [])
    (hdig : ∀ c ∈ d, isDigitC c = true)
    (hlk : List.lookup (String.mk (tagChars kind d)) m = none) :
    replaceTags kind m f (tagChars kind d ++ rest) =
      tagChars kind d ++ replaceTags kind m f rest := by
  rw [replaceTags_match m f (matchTagAt_tag kind d rest hd hdig)]
  rw [hlk]

/-- A tag of a different kind (first letter differs) is transparent to
the scan. -/
theorem replaceTags_tag_other {k0 o0 : Char} {kr okr : List Char}
    (m : List (String × String)) (f : String → List Char) (d rest : List Char)
    (hne : o0 ≠ k0) (ho0 : isWordC o0 = true)
    (hokr : ∀ c ∈ okr, isWordC c = true)
    (hdig : ∀ c ∈ d, isDigitC c = true) :
    replaceTags (k0 :: kr) m f (tagChars (o0 :: okr) d ++ rest) =
      tagChars (o0 :: okr) d ++ replaceTags (k0 :: kr) m f rest := by
  have hxs : ∀ c ∈ (o0 :: okr ++ '_' :: d ++ [']', ']']), c ≠ '[' := by
    intro c hc
    simp only [List.mem_cons, List.mem_append, List.not_mem_nil, or_false] at hc
    rcases hc with ((rfl | hc) | rfl | hc) | rfl | rfl
    · exact isWordC_ne_lbracket ho0
    · exact isWordC_ne_lbracket (hokr c hc)
    · decide
    · exact isDigitC_ne_bracket (hdig c hc)
    · decide
    · decide
  have hshape : tagChars (o0 :: okr) d ++ rest =
      '[' :: '[' :: o0 :: (okr ++ '_' :: d ++ ']' :: ']' :: rest) := by
    simp [tagChars]
  rw [hshape]
  rw [replaceTags_cons_no _ m f '[' _ (matchTagAt_no_third _ _ hne)]
  rw [replaceTags_cons_no _ m f '[' _ (matchTagAt_no_second _ _ (isWordC_ne_lbracket ho0))]
  rw [show o0 :: (okr ++ '_' :: d ++ ']' :: ']' :: rest) =
      (o0 :: okr ++ '_' :: d ++ [']', ']']) ++ rest by simp]
  rw [replaceTags_transparent _ m f hxs rest]
  simp [tagChars]

theorem rwaAux_fuel (n0 : Char) (ntl repl : List Char) :
    ∀ f1 l prev f2, l.length ≤ f1 → l.length ≤ f2 →
      rwaAux n0 ntl repl f1 prev l = rwaAux n0 ntl repl f2 prev l := by
  intro f1
  induction f1 with
  | zero =>
    intro l prev f2 h1 _
    have hl : l = [] := List.eq_nil_of_length_eq_zero (by omega)
    subst hl
    cases f2 <;> rfl
  | succ f1 ih =>
    intro l prev f2 h1 h2
    cases l with
    | nil => cases f2 <;> rfl
    | cons c rest =>
      cases f2 with
      | zero => simp at h2
      | succ f2 =>
        simp only [rwaAux]
        cases hcond : wbHit n0 ntl prev (c :: rest) with
        | true =>
          simp only [if_true]
          rw [ih ((c :: rest).drop (n0 :: ntl).length) (some (ntl.getLastD n0)) f2
            (by simp only [List.length_drop, List.length_cons] at h1 ⊢; omega)
            (by simp only [List.length_drop, List.length_cons] at h2 ⊢; omega)]
        | false =>
          simp only [Bool.false_eq_true, if_false]
          rw [ih rest (some c) f2 (by simpa using h1) (by simpa using h2)]

theorem rwaAux_prev (n0 : Char) (ntl repl : List Char) :
    ∀ fuel l p1 p2, wordAt p1 = wordAt p2 →
      rwaAux n0 ntl repl fuel p1 l = rwaAux n0 ntl repl fuel p2 l := by
  intro fuel
  induction fuel with
  | zero =>
    intro l p1 p2 _
    rfl
  | succ fuel ih =>
    intro l p1 p2 hp
    cases l with
    | nil => rfl
    | cons c rest =>
      have hwb : wbHit n0 ntl p1 (c :: rest) = wbHit n0 ntl p2 (c :: rest) := by
        unfold wbHit
        rw [hp]
      simp only [rwaAux]
      rw [hwb]

theorem wordC_beq_sep {c s : Char} (hc : isWordC c = true) (hs : isWordC s = false) :
    (c == s) = false := by
  cases hb : c == s
  · rfl
  · have : c = s := by simpa using hb
    rw [this, hs] at hc
    exact absurd hc (by simp)

theorem needle_ne_sep {n0 : Char} {ntl : List Char} {s : Char}
    (hk : ∀ c ∈ n0 :: ntl, isWordC c = true) (hs : isWordC s = false) :
    ∀ c ∈ n0 :: ntl, c ≠ s := by
  intro c hc he
  have hw := hk c hc
  rw [he, hs] at hw
  exact absurd hw (by simp)

theorem getLastD_mem_cons' (ntl : List Char) (n0 : Char) :
    ntl.getLastD n0 ∈ n0 :: ntl := by
  cases hn : ntl with
  | nil => simp
  | cons a l =>
    have : (a :: l).getLastD n0 = (a :: l).getLast (by simp) := by
      simp [List.getLastD_eq_getLast?, List.getLast?_eq_getLast]
    rw [this]
    exact List.mem_cons_of_mem n0 (List.getLast_mem _)

/-- A word-bounded needle test never reaches past a non-word
character: testing on `x ++ s :: y` is testing on `x`. -/
theorem wbHit_sep {n0 : Char} {ntl : List Char} {s : Char}
    (hk : ∀ c ∈ n0 :: ntl, isWordC c = true) (hs : isWordC s = false)
    (prev : Option Char) (x y : List Char) :
    wbHit n0 ntl prev (x ++ s :: y) = wbHit n0 ntl prev x := by
  have hP : (n0 :: ntl).isPrefixOf (x ++ s :: y) = (n0 :: ntl).isPrefixOf x :=
    isPrefixOf_sep_irrel (needle_ne_sep hk hs) x y
  unfold wbHit
  rw [hP]
  by_cases hp : (n0 :: ntl).isPrefixOf x = true
  · have hkl : (n0 :: ntl).length ≤ x.length := isPrefixOf_length hp
    have hwa : wordAt ((x ++ s :: y).drop (n0 :: ntl).length).head? =
        wordAt (x.drop (n0 :: ntl).length).head? := by
      rw [drop_append_le hkl]
      cases hxd : x.drop (n0 :: ntl).length with
      | nil => simp [wordAt, hs]
      | cons a r => simp [wordAt]
    rw [hwa]
  · have hpf : (n0 :: ntl).isPrefixOf x = false := by
      cases hx : (n0 :: ntl).isPrefixOf x
      · rfl
      · exact absurd hx hp
    rw [hpf]
    simp

/-- The word-bounded replacement scan splits at a non-word character:
the left half is scanned alone, the character is copied, and the right
half is scanned with the character as previous context. -/
theorem rwaAux_sep {n0 : Char} {ntl repl : List Char} {s : Char}
    (hk : ∀ c ∈ n0 :: ntl, isWordC c = true) (hs : isWordC s = false) :
    ∀ (fuel : Nat) (x y : List Char) (prev : Option Char),
      (x ++ s :: y).length ≤ fuel →
      rwaAux n0 ntl repl fuel prev (x ++ s :: y) =
        rwaAux n0 ntl repl x.length prev x ++
          s :: rwaAux n0 ntl repl y.length (some s) y := by
  intro fuel
  induction fuel with
  | zero =>
    intro x y prev h
    simp at h
  | succ fuel ih =>
    intro x y prev hlen
    cases x with
    | nil =>
      have hwb : wbHit n0 ntl prev (s :: y) = false := by
        unfold wbHit
        have hpre : (n0 :: ntl).isPrefixOf (s :: y) = false := by
          simp [List.isPrefixOf, wordC_beq_sep (hk n0 (by simp)) hs]
        rw [hpre]
        simp
      simp only [List.nil_append] at hlen ⊢
      simp only [rwaAux, hwb, Bool.false_eq_true, if_false]
      rw [rwaAux_fuel n0 ntl repl fuel y (some s) y.length
        (by simp at hlen; omega) (le_refl _)]
      rfl
    | cons c x' =>
      have hwb := wbHit_sep hk hs prev (c :: x') y
      simp only [List.cons_append] at hwb hlen ⊢
      cases hw : wbHit n0 ntl prev (c :: x') with
      | true =>
        have hwctx : wbHit n0 ntl prev (c :: (x' ++ s :: y)) = true := by
          rw [← List.cons_append] at hwb ⊢
          rw [hwb]
          exact hw
        have hp : (n0 :: ntl).isPrefixOf (c :: x') = true := by
          have := hw
          unfold wbHit at this
          simp only [Bool.and_eq_true] at this
          exact this.1.1
        have hkl : (n0 :: ntl).length ≤ (c :: x').length := isPrefixOf_length hp
        have hdrop : (c :: (x' ++ s :: y)).drop (n0 :: ntl).length =
            (c :: x').drop (n0 :: ntl).length ++ s :: y := by
          rw [← List.cons_append]
          exact drop_append_le hkl
        simp only [rwaAux, hwctx, hw, if_true]
        rw [hdrop]
        rw [ih ((c :: x').drop (n0 :: ntl).length) y (some (ntl.getLastD n0))
          (by simp only [List.length_append, List.length_drop, List.length_cons,
                List.length_cons] at hlen ⊢; omega)]
        rw [rwaAux_fuel n0 ntl repl x'.length ((c :: x').drop (n0 :: ntl).length)
          (some (ntl.getLastD n0)) ((c :: x').drop (n0 :: ntl).length).length
          (by simp only [List.length_drop, List.length_cons] at hkl ⊢; omega)
          (le_refl _)]
        simp
      | false =>
        have hwctx : wbHit n0 ntl prev (c :: (x' ++ s :: y)) = false := by
          rw [← List.cons_append] at hwb ⊢
          rw [hwb]
          exact hw
        simp only [rwaAux, hwctx, hw, Bool.false_eq_true, if_false]
        rw [ih x' y (some c) (by simp at hlen ⊢; omega)]
        simp

theorem replaceWordAll_sep {needle repl : List Char} {s : Char}
    (hk : ∀ c ∈ needle, isWordC c = true) (hne : needle ≠ [])
    (hs : isWordC s = false) (x y : List Char) :
    replaceWordAll needle repl (x ++ s :: y) =
      replaceWordAll needle repl x ++ s :: replaceWordAll needle repl y := by
  cases needle with
  | nil => exact absurd rfl hne
  | cons n0 ntl =>
    show rwaAux n0 ntl repl (x ++ s :: y).length none (x ++ s :: y) =
      rwaAux n0 ntl repl x.length none x ++
        s :: rwaAux n0 ntl repl y.length none y
    rw [rwaAux_sep hk hs ((x ++ s :: y).length) x y none (le_refl _)]
    rw [rwaAux_prev n0 ntl repl y.length y (some s) none (by simp [wordAt, hs])]

/-- Inside a word run (previous character is a word character) the
scan fires no match: the start boundary never holds. -/
theorem rwaAux_in_run {n0 : Char} {ntl repl : List Char}
    (hn0 : isWordC n0 = true) :
    ∀ (run : List Char) (y : List Char) (prev : Option Char) (fuel : Nat),
      (∀ c ∈ run, isWordC c = true) →
      wordAt prev = true →
      (run ++ y).length ≤ fuel →
      (y = [] ∨ ∃ s y', isWordC s = false ∧ y = s :: y') →
      rwaAux n0 ntl repl fuel prev (run ++ y) =
        run ++ rwaAux n0 ntl repl y.length none y := by
  intro run
  induction run with
  | nil =>
    intro y prev fuel _ hprev hlen hy
    rcases hy with rfl | ⟨s, y', hs, rfl⟩
    · cases fuel <;> rfl
    · cases fuel with
      | zero => simp at hlen
      | succ fuel =>
        have hpre : (n0 :: ntl).isPrefixOf (s :: y') = false := by
          simp [List.isPrefixOf, wordC_beq_sep hn0 hs]
        have hwb1 : wbHit n0 ntl prev (s :: y') = false := by
          unfold wbHit
          rw [hpre]
          simp
        have hwb2 : wbHit n0 ntl none (s :: y') = false := by
          unfold wbHit
          rw [hpre]
          simp
        simp only [List.nil_append, List.length_cons, rwaAux, hwb1, hwb2,
          Bool.false_eq_true, if_false]
        rw [rwaAux_fuel n0 ntl repl fuel y' (some s) y'.length
          (by simp at hlen; omega) (le_refl _)]
  | cons r0 run' ih =>
    intro y prev fuel hrun hprev hlen hy
    cases fuel with
    | zero => simp at hlen
    | succ fuel =>
      have hwb : wbHit n0 ntl prev (r0 :: (run' ++ y)) = false := by
        unfold wbHit
        rw [hprev, hn0]
        simp
      simp only [List.cons_append] at hlen ⊢
      simp only [rwaAux, hwb, Bool.false_eq_true, if_false]
      rw [ih y (some r0) fuel (fun c hc => hrun c (by simp [hc]))
        (by simp [wordAt]; exact hrun r0 (by simp))
        (by simp at hlen ⊢; omega) hy]

/-- At a word boundary, a word run that is not the needle itself is
copied unchanged: a shorter needle fails the end boundary, the
equal-length needle would be the run, and a longer needle cannot match
past the run's end. -/
theorem rwaAux_run_start {n0 : Char} {ntl repl : List Char}
    (hk : ∀ c ∈ n0 :: ntl, isWordC c = true) :
    ∀ (run y : List Char) (prev : Option Char) (fuel : Nat),
      run ≠ [] →
      (∀ c ∈ run, isWordC c = true) →
      wordAt prev = false →
      (n0 :: ntl) ≠ run →
      (y = [] ∨ ∃ s y', isWordC s = false ∧ y = s :: y') →
      (run ++ y).length ≤ fuel →
      rwaAux n0 ntl repl fuel prev (run ++ y) =
        run ++ rwaAux n0 ntl repl y.length none y := by
  intro run y prev fuel hne hrun hprev hkey hy hlen
  have hwb : wbHit n0 ntl prev (run ++ y) = false := by
    unfold wbHit
    by_cases hp : (n0 :: ntl).isPrefixOf (run ++ y) = true
    · have hple : (n0 :: ntl).length ≤ run.length := by
        rcases hy with rfl | ⟨s, y', hs, rfl⟩
        · have := isPrefixOf_length hp
          simpa using this
        · have hirr := isPrefixOf_sep_irrel (needle_ne_sep hk hs) run y'
          rw [hirr] at hp
          exact isPrefixOf_length hp
      rcases Nat.lt_or_ge (n0 :: ntl).length run.length with hlt | hge
      · have hR : wordAt ((run ++ y).drop (n0 :: ntl).length).head? = true := by
          rw [drop_append_le (Nat.le_of_lt hlt)]
          cases hrd : run.drop (n0 :: ntl).length with
          | nil =>
            exfalso
            have hz := congrArg List.length hrd
            simp only [List.length_drop, List.length_cons, List.length_nil] at hz hlt
            omega
          | cons a r =>
            have ha : a ∈ run := by
              have : a ∈ run.drop (n0 :: ntl).length := by
                rw [hrd]
                simp
              exact List.mem_of_mem_drop this
            simp [wordAt, hrun a ha]
        have hlast : isWordC (ntl.getLastD n0) = true :=
          hk _ (getLastD_mem_cons' ntl n0)
        rw [hR, hlast]
        simp
      · have heqlen : (n0 :: ntl).length = run.length := by omega
        exfalso
        apply hkey
        have hsplit := eq_append_drop_of_isPrefixOf hp
        have htake : (n0 :: ntl) = (run ++ y).take (n0 :: ntl).length := by
          rw [hsplit]
          rw [List.take_append_eq_append_take]
          simp
        rw [htake, heqlen, take_append_le (le_refl _), List.take_length]
    · have hpf : (n0 :: ntl).isPrefixOf (run ++ y) = false := by
        cases hx : (n0 :: ntl).isPrefixOf (run ++ y)
        · rfl
        · exact absurd hx hp
      rw [hpf]
      simp
  cases run with
  | nil => exact absurd rfl hne
  | cons r0 run' =>
    cases fuel with
    | zero => simp at hlen
    | succ fuel =>
      simp only [List.cons_append] at hwb hlen ⊢
      simp only [rwaAux, hwb, Bool.false_eq_true, if_false]
      rw [rwaAux_in_run (hk n0 (by simp)) run' y (some r0) fuel
        (fun c hc => hrun c (by simp [hc]))
        (by simp [wordAt]; exact hrun r0 (by simp))
        (by simp at hlen ⊢; omega) hy]

/-- `replaceWordAll` copies a fresh word run that is not the needle. -/
theorem replaceWordAll_run {needle repl : List Char}
    (hk : ∀ c ∈ needle, isWordC c = true) (hne : needle ≠ []) :
    ∀ (run y : List Char),
      run ≠ [] →
      (∀ c ∈ run, isWordC c = true) →
      needle ≠ run →
      (y = [] ∨ ∃ s y', isWordC s = false ∧ y = s :: y') →
      replaceWordAll needle repl (run ++ y) =
        run ++ replaceWordAll needle repl y := by
  intro run y hrne hrun hkey hy
  cases needle with
  | nil => exact absurd rfl hne
  | cons n0 ntl =>
    show rwaAux n0 ntl repl (run ++ y).length none (run ++ y) =
      run ++ rwaAux n0 ntl repl y.length none y
    exact rwaAux_run_start hk run y none (run ++ y).length hrne hrun
      (by simp [wordAt]) hkey hy (le_refl _)

/-- The shape of a masked-looking token: a word run (an
identifier-shaped name such as `VAR_99`), or a `[[STR_d]]` /
`[[CMT_d]]` tag; `run` is its inner word run. -/
def TokShape (tok run : List Char) : Prop :=
  (tok = run ∧ run ≠ [] ∧ ∀ c ∈ run, isWordC c = true) ∨
  (∃ kind d, (kind = strKind ∨ kind = cmtKind) ∧ d ≠ [] ∧
    (∀ c ∈ d, isDigitC c = true) ∧ tok = tagChars kind d ∧ run = kind ++ '_' :: d)

theorem strKind_words : ∀ c ∈ strKind, isWordC c = true := by decide

theorem cmtKind_words : ∀ c ∈ cmtKind, isWordC c = true := by decide

theorem run_words {kind d : List Char} (hk : ∀ c ∈ kind, isWordC c = true)
    (hdig : ∀ c ∈ d, isDigitC c = true) :
    ∀ c ∈ kind ++ '_' :: d, isWordC c = true := by
  intro c hc
  simp only [List.mem_append, List.mem_cons] at hc
  rcases hc with hc | rfl | hc
  · exact hk c hc
  · decide
  · exact isDigitC_word (hdig c hc)

theorem replaceTags_sep_end {skind : List Char} {s : Char}
    (hkw : ∀ c ∈ skind, isWordC c = true) (hs : isSepC s = true)
    (m : List (String × String)) (f : String → List Char) (u0 : List Char) :
    replaceTags skind m f (u0 ++ [s]) = replaceTags skind m f u0 ++ [s] := by
  have h := replaceTags_sep hkw hs m f u0 []
  simpa [replaceTags_nil] using h

theorem replaceTags_sep_start {skind : List Char} {s : Char}
    (hkw : ∀ c ∈ skind, isWordC c = true) (hs : isSepC s = true)
    (m : List (String × String)) (f : String → List Char) (v1 : List Char) :
    replaceTags skind m f (s :: v1) = s :: replaceTags skind m f v1 := by
  have h := replaceTags_sep hkw hs m f [] v1
  simpa [replaceTags_nil] using h

/-- A masked-looking token that is not a mapping key passes through a
tag scan unchanged, the scan continuing after it. -/
theorem replaceTags_tok_through {skind : List Char}
    (hkind : skind = strKind ∨ skind = cmtKind)
    (m : List (String × String)) (f : String → List Char)
    {tok run : List Char} (hshape : TokShape tok run)
    (hlk : List.lookup (String.mk tok) m = none) (v : List Char) :
    replaceTags skind m f (tok ++ v) = tok ++ replaceTags skind m f v := by
  rcases hshape with ⟨rfl, _, hword⟩ | ⟨tkind, d, htk, hd, hdig, rfl, _⟩
  · exact replaceTags_transparent skind m f
      (fun c hc => isWordC_ne_lbracket (hword c hc)) v
  · rcases htk with rfl | rfl <;> rcases hkind with rfl | rfl
    · exact replaceTags_tag_unknown m f v hd hdig hlk
    · rw [show cmtKind = 'C' :: ['M', 'T'] from rfl,
          show strKind = 'S' :: ['T', 'R'] from rfl]
      exact replaceTags_tag_other m f d v (by decide) (by decide)
        (by decide) hdig
    · rw [show strKind = 'S' :: ['T', 'R'] from rfl,
          show cmtKind = 'C' :: ['M', 'T'] from rfl]
      exact replaceTags_tag_other m f d v (by decide) (by decide)
        (by decide) hdig
    · exact replaceTags_tag_unknown m f v hd hdig hlk

/-- A tag scan conserves a non-key masked-looking token between
separator-delimited halves, scanning each half as if alone. -/
theorem replaceTags_conserve {skind : List Char}
    (hkind : skind = strKind ∨ skind = cmtKind)
    (m : List (String × String)) (f : String → List Char)
    {tok run : List Char} (hshape : TokShape tok run)
    (hlk : List.lookup (String.mk tok) m = none)
    {u v : List Char}
    (hu : u = [] ∨ ∃ u0 s1, isSepC s1 = true ∧ u = u0 ++ [s1])
    (hv : v = [] ∨ ∃ s2 v1, isSepC s2 = true ∧ v = s2 :: v1) :
    replaceTags skind m f (u ++ tok ++ v) =
      replaceTags skind m f u ++ tok ++ replaceTags skind m f v := by
  have hkw : ∀ c ∈ skind, isWordC c = true := by
    rcases hkind with rfl | rfl
    · exact strKind_words
    · exact cmtKind_words
  rcases hu with rfl | ⟨u0, s1, hs1, rfl⟩
  · simp only [List.nil_append]
    rw [replaceTags_nil]
    rw [replaceTags_tok_through hkind m f hshape hlk v]
    rfl
  · have hassoc : (u0 ++ [s1]) ++ tok ++ v = u0 ++ s1 :: (tok ++ v) := by
      simp
    rw [hassoc, replaceTags_sep hkw hs1 m f u0 (tok ++ v)]
    rw [replaceTags_tok_through hkind m f hshape hlk v]
    rw [replaceTags_sep_end hkw hs1 m f u0]
    simp

theorem replaceWordAll_cons_nonword {needle repl : List Char}
    (hk : ∀ c ∈ needle, isWordC c = true) (hne : needle ≠ [])
    {s : Char} (hs : isWordC s = false) (y : List Char) :
    replaceWordAll needle repl (s :: y) = s :: replaceWordAll needle repl y := by
  have h := @replaceWordAll_sep needle repl s hk hne hs [] y
  simpa [replaceWordAll_nil_hay] using h

theorem replaceWordAll_snoc_nonword {needle repl : List Char}
    (hk : ∀ c ∈ needle, isWordC c = true) (hne : needle ≠ [])
    {s : Char} (hs : isWordC s = false) (x : List Char) :
    replaceWordAll needle repl (x ++ [s]) = replaceWordAll needle repl x ++ [s] := by
  have h := @replaceWordAll_sep needle repl s hk hne hs x []
  simpa [replaceWordAll_nil_hay] using h

/-- A word-character needle that spells neither the token's inner run
nor crosses its separators copies the token unchanged. -/
theorem replaceWordAll_tok_through {needle repl : List Char}
    (hk : ∀ c ∈ needle, isWordC c = true) (hne : needle ≠ [])
    {tok run : List Char} (hshape : TokShape tok run) (hneq : needle ≠ run)
    {B : List Char}
    (hB : B = [] ∨ ∃ s2 B1, isSepC s2 = true ∧ B = s2 :: B1) :
    replaceWordAll needle repl (tok ++ B) =
      tok ++ replaceWordAll needle repl B := by
  have hBx : B = [] ∨ ∃ s B1, isWordC s = false ∧ B = s :: B1 := by
    rcases hB with rfl | ⟨s2, B1, hs2, rfl⟩
    · exact Or.inl rfl
    · exact Or.inr ⟨s2, B1, isSepC_not_word hs2, rfl⟩
  rcases hshape with ⟨rfl, hrne, hword⟩ | ⟨kind, d, htk, hd, hdig, rfl, rfl⟩
  · exact replaceWordAll_run hk hne tok B hrne hword hneq hBx
  · have hkw : ∀ c ∈ kind, isWordC c = true := by
      rcases htk with rfl | rfl
      · exact strKind_words
      · exact cmtKind_words
    have hrw : ∀ c ∈ kind ++ '_' :: d, isWordC c = true := run_words hkw hdig
    have hrne : kind ++ '_' :: d ≠ [] := by
      intro h
      have := congrArg List.length h
      simp at this
    have hshape2 : tagChars kind d ++ B =
        '[' :: '[' :: ((kind ++ '_' :: d) ++ (']' :: ']' :: B)) := by
      simp [tagChars]
    rw [hshape2]
    rw [replaceWordAll_cons_nonword hk hne (by decide) _]
    rw [replaceWordAll_cons_nonword hk hne (by decide) _]
    rw [replaceWordAll_run hk hne (kind ++ '_' :: d) (']' :: ']' :: B) hrne hrw
      hneq (Or.inr ⟨']', ']' :: B, by decide, rfl⟩)]
    rw [replaceWordAll_cons_nonword hk hne (by decide) _]
    rw [replaceWordAll_cons_nonword hk hne (by decide) _]
    simp [tagChars]

/-- A single word-replacement conserves a masked-looking token between
separator-delimited halves, replacing in each half as if alone. -/
theorem replaceWordAll_conserve {needle repl : List Char}
    (hk : ∀ c ∈ needle, isWordC c = true) (hne : needle ≠ [])
    {tok run : List Char} (hshape : TokShape tok run) (hneq : needle ≠ run)
    {A B : List Char}
    (hA : A = [] ∨ ∃ A0 s1, isSepC s1 = true ∧ A = A0 ++ [s1])
    (hB : B = [] ∨ ∃ s2 B1, isSepC s2 = true ∧ B = s2 :: B1) :
    replaceWordAll needle repl (A ++ tok ++ B) =
      replaceWordAll needle repl A ++ tok ++ replaceWordAll needle repl B := by
  rcases hA with rfl | ⟨A0, s1, hs1, rfl⟩
  · simp only [List.nil_append]
    rw [replaceWordAll_nil_hay, replaceWordAll_tok_through hk hne hshape hneq hB]
    rfl
  · have hassoc : (A0 ++ [s1]) ++ tok ++ B = A0 ++ s1 :: (tok ++ B) := by
      simp
    rw [hassoc, replaceWordAll_sep hk hne (isSepC_not_word hs1) A0 (tok ++ B)]
    rw [replaceWordAll_tok_through hk hne hshape hneq hB]
    rw [replaceWordAll_snoc_nonword hk hne (isSepC_not_word hs1) A0]
    simp

/-- The whole identifier pass conserves a masked-looking token whose
inner run no non-skipped key spells, between separator-delimited
halves. -/
theorem identPass_conserve (m : List (String × String)) :
    ∀ (A tok run B : List Char), TokShape tok run →
      (∀ kv ∈ m, jsStartsWith kv.1 "STR" = true ∨ jsStartsWith kv.1 "[[" = true ∨
        (kv.1.data ≠ [] ∧ (∀ c ∈ kv.1.data, isWordC c = true) ∧ kv.1.data ≠ run)) →
      (A = [] ∨ ∃ A0 s1, isSepC s1 = true ∧ A = A0 ++ [s1]) →
      (B = [] ∨ ∃ s2 B1, isSepC s2 = true ∧ B = s2 :: B1) →
      identPass m (A ++ tok ++ B) = identPass m A ++ tok ++ identPass m B := by
  induction m with
  | nil =>
    intro A tok run B _ _ _ _
    rfl
  | cons kv rest ih =>
    intro A tok run B hshape hkeys hA hB
    have hkeys' : ∀ kv' ∈ rest, jsStartsWith kv'.1 "STR" = true ∨
        jsStartsWith kv'.1 "[[" = true ∨
        (kv'.1.data ≠ [] ∧ (∀ c ∈ kv'.1.data, isWordC c = true) ∧ kv'.1.data ≠ run) := by
      intro kv' h
      exact hkeys kv' (by simp [h])
    rw [identPass_cons, identPass_cons, identPass_cons]
    by_cases h1 : jsStartsWith kv.1 "STR" = true
    · simp only [h1, if_true]
      exact ih A tok run B hshape hkeys' hA hB
    · by_cases h2 : jsStartsWith kv.1 "[[" = true
      · simp only [h1, h2, Bool.false_eq_true, if_false, if_true]
        exact ih A tok run B hshape hkeys' hA hB
      · rcases hkeys kv (by simp) with h | h | ⟨hne, hword, hneq⟩
        · exact absurd h h1
        · exact absurd h h2
        · simp only [h1, h2, Bool.false_eq_true, if_false]
          rw [replaceWordAll_conserve hword hne hshape hneq hA hB]
          refine ih _ tok run _ hshape hkeys' ?_ ?_
          · rcases hA with rfl | ⟨A0, s1, hs1, rfl⟩
            · rw [replaceWordAll_nil_hay]
              exact Or.inl rfl
            · exact Or.inr ⟨replaceWordAll kv.1.data kv.2.data A0, s1, hs1,
                replaceWordAll_snoc_nonword hword hne (isSepC_not_word hs1) A0⟩
          · rcases hB with rfl | ⟨s2, B1, hs2, rfl⟩
            · rw [replaceWordAll_nil_hay]
              exact Or.inl rfl
            · exact Or.inr ⟨s2, replaceWordAll kv.1.data kv.2.data B1, hs2,
                replaceWordAll_cons_nonword hword hne (isSepC_not_word hs2) B1⟩

/-- All three passes of `_restoreByRegex` conserve a non-key
masked-looking token whose inner run no non-skipped key spells,
restoring each separator-delimited half as if alone. -/
theorem restoreChars_conserve (m : List (String × String))
    {tok run : List Char} (hshape : TokShape tok run)
    (hlk : List.lookup (String.mk tok) m = none)
    (hkeys : ∀ kv ∈ m, jsStartsWith kv.1 "STR" = true ∨ jsStartsWith kv.1 "[[" = true ∨
      (kv.1.data ≠ [] ∧ (∀ c ∈ kv.1.data, isWordC c = true) ∧ kv.1.data ≠ run))
    {u v : List Char}
    (hu : u = [] ∨ ∃ u0 s1, isSepC s1 = true ∧ u = u0 ++ [s1])
    (hv : v = [] ∨ ∃ s2 v1, isSepC s2 = true ∧ v = s2 :: v1) :
    restoreChars (u ++ tok ++ v) m =
      restoreChars u m ++ tok ++ restoreChars v m := by
  unfold restoreChars
  rw [replaceTags_conserve (Or.inl rfl) m strContent hshape hlk hu hv]
  have hu1 : replaceTags strKind m strContent u = [] ∨
      ∃ u0 s1, isSepC s1 = true ∧
        replaceTags strKind m strContent u = u0 ++ [s1] := by
    rcases hu with rfl | ⟨u0, s1, hs1, rfl⟩
    · exact Or.inl (replaceTags_nil _ _ _)
    · exact Or.inr ⟨replaceTags strKind m strContent u0, s1, hs1,
        replaceTags_sep_end strKind_words hs1 m strContent u0⟩
  have hv1 : replaceTags strKind m strContent v = [] ∨
      ∃ s2 v1, isSepC s2 = true ∧
        replaceTags strKind m strContent v = s2 :: v1 := by
    rcases hv with rfl | ⟨s2, v1, hs2, rfl⟩
    · exact Or.inl (replaceTags_nil _ _ _)
    · exact Or.inr ⟨s2, replaceTags strKind m strContent v1, hs2,
        replaceTags_sep_start strKind_words hs2 m strContent v1⟩
  rw [replaceTags_conserve (Or.inr rfl) m cmtContent hshape hlk hu1 hv1]
  have hu2 : replaceTags cmtKind m cmtContent (replaceTags strKind m strContent u) = [] ∨
      ∃ u0 s1, isSepC s1 = true ∧
        replaceTags cmtKind m cmtContent (replaceTags strKind m strContent u) =
          u0 ++ [s1] := by
    rcases hu1 with h | ⟨u0, s1, hs1, h⟩
    · rw [h]
      exact Or.inl (replaceTags_nil _ _ _)
    · rw [h]
      exact Or.inr ⟨replaceTags cmtKind m cmtContent u0, s1, hs1,
        replaceTags_sep_end cmtKind_words hs1 m cmtContent u0⟩
  have hv2 : replaceTags cmtKind m cmtContent (replaceTags strKind m strContent v) = [] ∨
      ∃ s2 v1, isSepC s2 = true ∧
        replaceTags cmtKind m cmtContent (replaceTags strKind m strContent v) =
          s2 :: v1 := by
    rcases hv1 with h | ⟨s2, v1, hs2, h⟩
    · rw [h]
      exact Or.inl (replaceTags_nil _ _ _)
    · rw [h]
      exact Or.inr ⟨s2, replaceTags cmtKind m cmtContent v1, hs2,
        replaceTags_sep_start cmtKind_words hs2 m cmtContent v1⟩
  exact identPass_conserve m _ tok run _ hshape hkeys hu2 hv2

/-- C8 as amended: a masked-looking token — identifier-shaped such as
`VAR_99`, or tag-shaped such as `[[STR_99]]` / `[[CMT_99]]` — that is
not a key of the mapping is left character-for-character unchanged by
restoration, which raises nothing and restores the separator-delimited
halves around it exactly as it would restore them alone; provided
every non-skipped mapping key is a nonempty word-character name (as
every minted identifier mask is, making `\b…\b` construct and match
literally) and none of them spells the token's inner word run. -/
theorem unknown_token_preserved_between_restorations :
    ∀ (env : RegexEnv) (m : List (String × String)) (u tok v run : List Char),
      TokShape tok run →
      List.lookup (String.mk tok) m = none →
      (∀ kv ∈ m, jsStartsWith kv.1 "STR" = true ∨ jsStartsWith kv.1 "[[" = true ∨
        (kv.1.data ≠ [] ∧ (∀ c ∈ kv.1.data, isWordC c = true) ∧ kv.1.data ≠ run)) →
      (∀ k : String, (∀ c ∈ k.data, isWordC c = true) → env.compileOk k = true) →
      (u = [] ∨ ∃ u0 s1, isSepC s1 = true ∧ u = u0 ++ [s1]) →
      (v = [] ∨ ∃ s2 v1, isSepC s2 = true ∧ v = s2 :: v1) →
      restoreByRegexE env (String.mk (u ++ tok ++ v)) m =
        .ok (String.mk (restoreChars u m ++ tok ++ restoreChars v m)) := by
  intro env m u tok v run hshape hlk hkeys henv hu hv
  have hok : ∀ kv ∈ m, jsStartsWith kv.1 "STR" = true ∨
      jsStartsWith kv.1 "[[" = true ∨ env.compileOk kv.1 = true := by
    intro kv h
    rcases hkeys kv h with h1 | h2 | ⟨_, hw, _⟩
    · exact Or.inl h1
    · exact Or.inr (Or.inl h2)
    · exact Or.inr (Or.inr (henv kv.1 hw))
  unfold restoreByRegexE
  rw [show (String.mk (u ++ tok ++ v)).data = u ++ tok ++ v from rfl]
  rw [identPassE_ok env m _ hok]
  rw [show identPass m (replaceTags cmtKind m cmtContent
      (replaceTags strKind m strContent (u ++ tok ++ v))) =
      restoreChars (u ++ tok ++ v) m from rfl]
  rw [restoreChars_conserve m hshape hlk hkeys hu hv]
  rfl

/-- C8 witness: restoring `VAR_1 + VAR_99;` with the mapping
`{VAR_1 → data}` raises nothing, restores `VAR_1`, and leaves the
unknown `VAR_99` intact: the result is `data + VAR_99;`. -/
theorem unknown_token_preserved_between_restorations_witness :
    restoreByRegexE rxWordOnly "VAR_1 + VAR_99;" [("VAR_1", "data")] =
      .ok "data + VAR_99;" ∧
    List.lookup "VAR_99" [("VAR_1", "data")] = none := by
  constructor
  · have h := unknown_token_preserved_between_restorations rxWordOnly
      [("VAR_1", "data")] ("VAR_1 + ".data) ("VAR_99".data) (";".data) ("VAR_99".data)
      (Or.inl ⟨rfl, by decide, by decide⟩) (by decide) (by decide)
      (fun k hw => by simpa [rxWordOnly, List.all_eq_true] using hw)
      (Or.inr ⟨"VAR_1 +".data, ' ', by decide, by decide⟩)
      (Or.inr ⟨';', [], by decide, rfl⟩)
    rw [show String.mk ("VAR_1 + ".data ++ "VAR_99".data ++ ";".data) =
        ("VAR_1 + VAR_99;" : String) by decide] at h
    rw [h]
    decide
  · decide

/-- C8 counterexample: the unqualified claim fails — `[[CMT_99]]` is
not a key of the mapping `{CMT_99 → note}`, yet restoration rewrites
its inside: the bare key `CMT_99` matches word-bounded between the
brackets and the tag comes out as `[[note]]`. -/
theorem unknown_tag_rewritten_by_inner_key :
    List.lookup "[[CMT_99]]" [("CMT_99", "note")] = none ∧
    restoreByRegex "[[CMT_99]]" [("CMT_99", "note")] = "[[note]]" ∧
    restoreByRegex "[[CMT_99]]" [("CMT_99", "note")] ≠ "[[CMT_99]]" := by
  refine ⟨by decide, by decide, by decide⟩
